import Mathlib

/-!
# matching2D_Student.cpp : ratio-test filter and Harris suppression loop

A shallow embedding of the two pieces of original logic of
`src/matching2D_Student.cpp`:

* the k-nearest-neighbour ratio filter of `matchDescriptors` (lines 37-45);
* the non-maximum-suppression loop of `detKeypointsHarris` (lines 157-179).

## Numbers

A finite single-precision value is modelled by the rational number it denotes (`ℚ`).
Comparisons of floats are then comparisons of rationals.  The only arithmetic the two
routines perform on floats is the product `threshold * distance` of the ratio test, which
is modelled by the exact product followed by rounding to the nearest binary32 value, ties
to even (`round32`).  The conversion `int -> float` of the pixel coordinates (line 163) is
rounding to the nearest binary32 value as well (`intToFloat`): it is exact up to `2 ^ 24`
and rounds from 16777217 on, which the theorems that need exact positions state as a
bound on the number of rows and columns.  The response of a candidate is `int(x)` of a
float `x` converted back to float (lines 160 and 165); the truncation of a float is again
a float, so this conversion is exact, and the response is the truncated value itself.
The conversion `float -> int` is truncation toward zero (`truncToInt`); it stays far inside
the range of `int` on the grid the loop reads, which `cv::normalize` has scaled to the
interval from 0 to 255, so no machine-integer overflow arises.
NaN and infinities are not values of the model; for the overlap measure this loses nothing,
because the loop only ever tests `overlap > 100`, which is false for NaN and true for
`+inf`, exactly as for some finite value.

## External library

`cv::KeyPoint::overlap`, `cv::DescriptorMatcher::match` and `knnMatch` are library
routines; they are parameters of the model.  The response grid `dst_norm` that
`cv::cornerHarris` and `cv::normalize` compute (lines 151-155) is the input of the model of
the loop.  Timing, console output and visualisation are left out.
-/

namespace Matching2D

/-! ## Single-precision rounding -/

/-- Auxiliary for `natLog2`: at most `fuel` halvings. -/
def log2Fuel : Nat → Nat → Nat
  | 0, _ => 0
  | fuel + 1, n => if n < 2 then 0 else 1 + log2Fuel fuel (n / 2)

/-- Floor of the binary logarithm of a positive natural number. -/
def natLog2 (n : Nat) : Nat := log2Fuel n n

/-- Floor of the binary logarithm of the positive rational `n / d`. -/
def floorLog2 (n d : Nat) : Int :=
  let e0 : Int := (natLog2 n : Int) - (natLog2 d : Int)
  let below : Bool :=
    if 0 ≤ e0 then decide (2 ^ e0.toNat * d ≤ n) else decide (d ≤ n * 2 ^ (-e0).toNat)
  if below then e0 else e0 - 1

/-- Nearest integer to `n / d`, ties to the even neighbour. -/
def roundHalfEven (n d : Nat) : Nat :=
  let q := n / d
  let r := n % d
  if 2 * r < d then q else if d < 2 * r then q + 1 else if q % 2 = 0 then q else q + 1

/-- Rounding of a rational to the nearest binary32 value (24-bit significand, smallest
unit `2 ^ (-149)`), ties to even.  Overflow to infinity is not modelled: the argument is
meant to be at most the largest finite binary32 value in magnitude. -/
def round32 (q : ℚ) : ℚ :=
  if q = 0 then 0 else
    let n := q.num.natAbs
    let d := q.den
    let u : Int := max (floorLog2 n d - 23) (-149)
    let mag : ℚ :=
      if 0 ≤ u then ((roundHalfEven n (d * 2 ^ u.toNat) * 2 ^ u.toNat : Nat) : ℚ)
      else mkRat (roundHalfEven (n * 2 ^ (-u).toNat) d) (2 ^ (-u).toNat)
    if q < 0 then -mag else mag

/-- Single-precision product `a * b` of two finite floats. -/
def fmul32 (a b : ℚ) : ℚ := round32 (a * b)

/-- Conversion `int(x)` of a float: truncation toward zero. -/
def truncToInt (q : ℚ) : Int := Int.tdiv q.num q.den

/-- Conversion of an `int` to `float`: the nearest binary32 value. -/
def intToFloat (n : Int) : ℚ := round32 (n : ℚ)

/-! ## matchDescriptors -/

/-- The type `cv::DMatch`. -/
structure DMatch where
  queryIdx : Int
  trainIdx : Int
  imgIdx : Int
  distance : ℚ
deriving DecidableEq

/-- Ways in which `matchDescriptors` can fail to return.  `outOfBoundsRead` is the
undefined behaviour of `std::vector::operator[]` past the end, `nullMatcher` the
dereference of a null `cv::Ptr`, and `invalidInput` the error named by the specification
(the source has no statement that raises it). -/
inductive Failure where
  | invalidInput
  | outOfBoundsRead
  | nullMatcher
deriving DecidableEq

deriving instance DecidableEq for Except

/-- Line 13: `float threshold = 0.8;`, the literal converted to single precision (the
double-precision literal and the real number 8/10 round to the same float,
13421773 / 16777216). -/
def threshold : ℚ := round32 (8 / 10)

/-- Lines 43-44, the body of the loop for one element `*it` of `matches_unfiltered`:
`if ((*it)[0].distance <= threshold * (*it)[1].distance) matches.push_back((*it)[0]);` -/
def ratioStep (matched : List DMatch) (it : List DMatch) : Except Failure (List DMatch) :=
  match it[0]?, it[1]? with
  | some best, some second =>
    if best.distance ≤ fmul32 threshold second.distance then .ok (matched ++ [best])
    else .ok matched
  | _, _ => .error Failure.outOfBoundsRead

/-- Lines 42-44: the loop over `matches_unfiltered`. -/
def ratioFilter : List (List DMatch) → List DMatch → Except Failure (List DMatch)
  | [], matched => .ok matched
  | it :: rest, matched =>
    match ratioStep matched it with
    | .ok matched1 => ratioFilter rest matched1
    | .error e => .error e

/-! ### The call of the matcher (lines 10-45) -/

/-- The norm handed to the brute-force matcher (line 18). -/
inductive NormType where
  | NORM_HAMMING
  | NORM_L2
deriving DecidableEq

/-- What the model uses of a `cv::DescriptorMatcher` object, for descriptor matrices of
type `Desc`.  A matcher owns a train collection, which is empty after `create` and is
filled by `add` only; the source never calls `add`. -/
structure DescriptorMatcher (Desc : Type) where
  /-- The call `match(queryDescriptors, trainDescriptors, matches)`. -/
  matchAgainst : Desc → Desc → List DMatch
  /-- The call `knnMatch(queryDescriptors, matches, k)`, the overload without train
  descriptors: it searches the train collection owned by the matcher. -/
  knnMatchOwn : Desc → Nat → List (List DMatch)

/-- The library routines used to configure the matcher (lines 16-29). -/
structure MatcherLibrary (Desc : Type) where
  /-- The call `cv::BFMatcher::create(normType, crossCheck)`. -/
  bfCreate : NormType → Bool → DescriptorMatcher Desc
  /-- The call `cv::FlannBasedMatcher::create()`. -/
  flannCreate : DescriptorMatcher Desc
  /-- The test `desc.type() == CV_32F`. -/
  isCV32F : Desc → Bool
  /-- The call `desc.convertTo(desc, CV_32F)`. -/
  convertTo32F : Desc → Desc

/-- Lines 10-29: the matcher and the (possibly converted) descriptor matrices; `none` is
the null `cv::Ptr` left when `matcherType` is neither `MAT_BF` nor `MAT_FLANN`. -/
def configureMatcher {Desc : Type} (lib : MatcherLibrary Desc) (descSource descRef : Desc)
    (descriptorType matcherType : String) : Option (DescriptorMatcher Desc) × Desc × Desc :=
  let crossCheck := false
  if matcherType = "MAT_BF" then
    let normType :=
      if descriptorType = "DES_BINARY" then NormType.NORM_HAMMING else NormType.NORM_L2
    (some (lib.bfCreate normType crossCheck), descSource, descRef)
  else if matcherType = "MAT_FLANN" then
    if lib.isCV32F descSource then (some lib.flannCreate, descSource, descRef)
    else (some lib.flannCreate, lib.convertTo32F descSource, lib.convertTo32F descRef)
  else (none, descSource, descRef)

/-- Lines 7-48: the value of `matches` after the call (the keypoint vectors are not used
by the function, and the console output is left out). -/
def matchDescriptors {Desc : Type} (lib : MatcherLibrary Desc) (descSource descRef : Desc)
    (matched : List DMatch) (descriptorType matcherType selectorType : String) :
    Except Failure (List DMatch) :=
  let cfg := configureMatcher lib descSource descRef descriptorType matcherType
  if selectorType = "SEL_NN" then
    match cfg.1 with
    | some matcher => .ok (matcher.matchAgainst cfg.2.1 cfg.2.2)
    | none => .error Failure.nullMatcher
  else if selectorType = "SEL_KNN" then
    match cfg.1 with
    | some matcher => ratioFilter (matcher.knnMatchOwn cfg.2.1 2) matched
    | none => .error Failure.nullMatcher
  else .ok matched

/-! ## detKeypointsHarris -/

/-- The type `cv::Point2f`. -/
structure Point2f where
  x : ℚ
  y : ℚ
deriving DecidableEq

/-- The type `cv::KeyPoint`. -/
structure KeyPoint where
  pt : Point2f
  size : ℚ
  angle : ℚ
  response : ℚ
  octave : Int
  class_id : Int
deriving DecidableEq

/-- A single-channel float matrix (`cv::Mat` of type `CV_32FC1`): its dimensions and the
accessor `at<float>(r, c)`, which the loop reads for `r < rows` and `c < cols` only. -/
structure Mat where
  rows : Nat
  cols : Nat
  atFloat : Nat → Nat → ℚ

/-- Line 145: `int apertureSize = 3;` -/
def apertureSize : Int := 3

/-- Line 146: `int minResponse = 100;` -/
def minResponse : Int := 100

/-- A default-constructed `cv::KeyPoint` (line 162, `cv::KeyPoint temp;`). -/
def defaultKeyPoint : KeyPoint :=
  { pt := ⟨0, 0⟩, size := 0, angle := -1, response := 0, octave := 0, class_id := -1 }

/-- Lines 162-165: the keypoint `temp` built for pixel `(r, c)` with truncated response
`cornerVal`: `temp.pt = cv::Point2f(c, r); temp.size = 2 * apertureSize;
temp.response = cornerVal;`.  The coordinates are converted from `int` to `float`;
`cornerVal` is the truncation of a float, whose conversion back to float is exact. -/
def candidate (c r : Nat) (cornerVal : Int) : KeyPoint :=
  { defaultKeyPoint with
    pt := ⟨intToFloat (c : Int), intToFloat (r : Int)⟩
    size := ((2 * apertureSize : Int) : ℚ)
    response := (cornerVal : ℚ) }

/-- Lines 168-175: the scan of the accepted keypoints for the candidate `temp`.  The
second argument is the current value of `foundOverlap`; the result is the list after the
scan and the final value of `foundOverlap`.  `maxOverlap` is the constant `100` of line
169, taken as a parameter. -/
def scanKeypoints (overlap : KeyPoint → KeyPoint → ℚ) (maxOverlap : ℚ) (temp : KeyPoint) :
    List KeyPoint → Bool → List KeyPoint × Bool
  | [], foundOverlap => ([], foundOverlap)
  | k :: rest, foundOverlap =>
    if overlap temp k > maxOverlap then
      if temp.response > k.response then (temp :: rest, true)
      else
        let scanned := scanKeypoints overlap maxOverlap temp rest true
        (k :: scanned.1, scanned.2)
    else
      let scanned := scanKeypoints overlap maxOverlap temp rest foundOverlap
      (k :: scanned.1, scanned.2)

/-- Lines 167-177: what the loop does with one candidate `temp`. -/
def processCandidate (overlap : KeyPoint → KeyPoint → ℚ) (maxOverlap : ℚ)
    (keypoints : List KeyPoint) (temp : KeyPoint) : List KeyPoint :=
  let scanned := scanKeypoints overlap maxOverlap temp keypoints false
  if scanned.2 then scanned.1 else scanned.1 ++ [temp]

/-- Lines 160-178: the body of the double loop for pixel `(r, c)`. -/
def processPixel (overlap : KeyPoint → KeyPoint → ℚ) (maxOverlap : ℚ) (dst_norm : Mat)
    (r c : Nat) (keypoints : List KeyPoint) : List KeyPoint :=
  let cornerVal : Int := truncToInt (dst_norm.atFloat r c)
  if cornerVal > minResponse then
    processCandidate overlap maxOverlap keypoints (candidate c r cornerVal)
  else keypoints

/-- Lines 157-179: the double loop over the rows and columns of the response grid, with
the overlap threshold as a parameter. -/
def harrisLoop (overlap : KeyPoint → KeyPoint → ℚ) (maxOverlap : ℚ)
    (keypoints : List KeyPoint) (dst_norm : Mat) : List KeyPoint :=
  (List.range dst_norm.rows).foldl
    (fun kps r =>
      (List.range dst_norm.cols).foldl
        (fun kps1 c => processPixel overlap maxOverlap dst_norm r c kps1) kps)
    keypoints

/-- Lines 157-179 as written: `harrisLoop` with the threshold `100` of line 169.  The
arguments are the library's overlap measure, the caller's keypoint vector and the
normalised response grid `dst_norm`. -/
def detKeypointsHarris (overlap : KeyPoint → KeyPoint → ℚ) (keypoints : List KeyPoint)
    (dst_norm : Mat) : List KeyPoint :=
  harrisLoop overlap 100 keypoints dst_norm

/-! ### Vocabulary of the claims about the loop -/

/-- The candidate keypoint of pixel `(r, c)`, if its truncated response passes the
response gate of line 161. -/
def pixelCandidate (dst_norm : Mat) (r c : Nat) : Option KeyPoint :=
  if truncToInt (dst_norm.atFloat r c) > minResponse then
    some (candidate c r (truncToInt (dst_norm.atFloat r c)))
  else none

/-- All candidate keypoints of a grid, in row-major order. -/
def candidates (dst_norm : Mat) : List KeyPoint :=
  (List.range dst_norm.rows).flatMap
    (fun r => (List.range dst_norm.cols).filterMap (pixelCandidate dst_norm r))

/-- A response grid as `cv::normalize` leaves it (line 154): every value lies between 0
and 255. -/
def Mat.normalised (m : Mat) : Prop :=
  ∀ r c, r < m.rows → c < m.cols → 0 ≤ m.atFloat r c ∧ m.atFloat r c ≤ 255

/-- The grid of the idempotence test: the dimensions are given, the pixel of every listed
keypoint holds that keypoint's response (the first listed one, should two keypoints share
a pixel), and every other pixel is zero. -/
def writeBack (rows cols : Nat) (kps : List KeyPoint) : Mat :=
  { rows := rows
    cols := cols
    atFloat := fun r c =>
      match kps.find? (fun k => decide (k.pt = ⟨(c : ℚ), (r : ℚ)⟩)) with
      | some k => k.response
      | none => 0 }

/-! ### Concrete inputs -/

/-- A grid given by its rows. -/
def Mat.ofRows (cols : Nat) (data : List (List ℚ)) : Mat :=
  { rows := data.length
    cols := cols
    atFloat := fun r c => (data.getD r []).getD c 0 }

/-- An overlap measure that decreases with the squared distance of the two centres. -/
def distOverlap (a b : KeyPoint) : ℚ :=
  max 0 (200 - 5 * ((a.pt.x - b.pt.x) ^ 2 + (a.pt.y - b.pt.y) ^ 2))

/-- The measure `distOverlap` scaled to a ratio between 0 and 1. -/
def ratioOverlap (a b : KeyPoint) : ℚ := distOverlap a b / 200

/-- An overlap measure under which two keypoints overlap exactly when their centres lie in
the same 4 by 4 cell of the image. -/
def cellOverlap (a b : KeyPoint) : ℚ :=
  if truncToInt (a.pt.x / 4) = truncToInt (b.pt.x / 4) ∧
      truncToInt (a.pt.y / 4) = truncToInt (b.pt.y / 4) then 150 else 0

/-- A two-level overlap measure: 150 for centres in the same 4 by 4 cell, 120 for centres
in the same 8 by 8 cell only, 0 otherwise. -/
def nestedOverlap (a b : KeyPoint) : ℚ :=
  if truncToInt (a.pt.x / 8) = truncToInt (b.pt.x / 8) ∧
      truncToInt (a.pt.y / 8) = truncToInt (b.pt.y / 8) then
    if truncToInt (a.pt.x / 4) = truncToInt (b.pt.x / 4) ∧
        truncToInt (a.pt.y / 4) = truncToInt (b.pt.y / 4) then 150 else 120
  else 0

/-- Three candidates: responses 110 at (0,0), 120 at (6,0) and 130 at (3,1). -/
def gridThree : Mat :=
  Mat.ofRows 7 [[110, 0, 0, 0, 0, 0, 120], [0, 0, 0, 130, 0, 0, 0]]

/-- Four candidates of response 150, at (0,0), (4,0), (7,0) and (4,3). -/
def gridFour : Mat :=
  Mat.ofRows 8 [[150, 0, 0, 0, 150, 0, 0, 150], [], [], [0, 0, 0, 0, 150]]

/-- A grid with fractional responses: 100.5, 101.25 and 255 in the first row, 0.5, 130.75
and 100.99 in the second. -/
def fracGrid : Mat :=
  Mat.ofRows 3 [[201 / 2, 405 / 4, 255], [1 / 2, 523 / 4, 10099 / 100]]

/-- One row of 16777218 columns, zero except for the responses 110 in column 16777216 and
120 in column 16777217. -/
def wideGrid : Mat :=
  { rows := 1
    cols := 16777218
    atFloat := fun _ c => if c = 16777216 then 110 else if c = 16777217 then 120 else 0 }

/-- A match with the given distance for query `q`. -/
def sampleMatch (q t : Int) (d : ℚ) : DMatch :=
  { queryIdx := q, trainIdx := t, imgIdx := 0, distance := d }

/-! ## Lemmas about the ratio filter -/

/-- Known values of single-precision rounding: the floats nearest to 1/3 and to 0.1, two
ties between neighbouring floats above `2 ^ 24`, a value that needs no rounding, and the
subnormal range. -/
theorem round32_values :
    round32 (1 / 3) = 11184811 / 33554432 ∧
    round32 (1 / 10) = 13421773 / 134217728 ∧
    round32 16777217 = 16777216 ∧
    round32 16777219 = 16777220 ∧
    round32 (-(5 / 2)) = -(5 / 2) ∧
    round32 (3 / 2 ^ 150) = 1 / 2 ^ 148 ∧
    round32 (1 / 2 ^ 150) = 0 := by
  decide!

theorem ratioFilter_pairs (pairs : List (DMatch × DMatch)) (matched : List DMatch) :
    ratioFilter (pairs.map (fun p => [p.1, p.2])) matched
      = .ok (matched ++ (pairs.filter
          (fun p => decide (p.1.distance ≤ fmul32 threshold p.2.distance))).map Prod.fst) := by
  induction pairs generalizing matched with
  | nil => simp [ratioFilter]
  | cons p rest ih =>
    by_cases hp : p.1.distance ≤ fmul32 threshold p.2.distance
    · simp [ratioFilter, ratioStep, hp, ih]
    · simp [ratioFilter, ratioStep, hp, ih]

theorem ratioFilter_ne_invalidInput (unfiltered : List (List DMatch)) (matched : List DMatch) :
    ratioFilter unfiltered matched ≠ .error Failure.invalidInput := by
  induction unfiltered generalizing matched with
  | nil => simp [ratioFilter]
  | cons it rest ih =>
    unfold ratioFilter
    cases h : ratioStep matched it with
    | ok m => simpa using ih m
    | error e =>
      unfold ratioStep at h
      split at h
      · split at h <;> simp at h
      · simp at h
        simp [← h]

theorem ratioStep_ok_of_two (matched it : List DMatch) (h : 2 ≤ it.length) :
    ∃ out, ratioStep matched it = .ok out := by
  match it, h with
  | a :: b :: rest, _ =>
    by_cases hp : a.distance ≤ fmul32 threshold b.distance
    · exact ⟨matched ++ [a], by simp [ratioStep, hp]⟩
    · exact ⟨matched, by simp [ratioStep, hp]⟩

theorem ratioStep_error_of_short (matched it : List DMatch) (h : it.length < 2) :
    ratioStep matched it = .error Failure.outOfBoundsRead := by
  match it, h with
  | [], _ => simp [ratioStep]
  | [a], _ => simp [ratioStep]

theorem ratioFilter_ok_of_two (unfiltered : List (List DMatch)) (matched : List DMatch)
    (h : ∀ it ∈ unfiltered, 2 ≤ it.length) : ∃ out, ratioFilter unfiltered matched = .ok out := by
  induction unfiltered generalizing matched with
  | nil => exact ⟨matched, rfl⟩
  | cons it rest ih =>
    obtain ⟨m, hm⟩ := ratioStep_ok_of_two matched it (h it (List.mem_cons_self _ _))
    obtain ⟨out, hout⟩ := ih m (fun x hx => h x (List.mem_cons_of_mem _ hx))
    exact ⟨out, by simp [ratioFilter, hm, hout]⟩

theorem ratioFilter_error_of_short (unfiltered : List (List DMatch)) (matched : List DMatch)
    (h : ∃ it ∈ unfiltered, it.length < 2) :
    ratioFilter unfiltered matched = .error Failure.outOfBoundsRead := by
  induction unfiltered generalizing matched with
  | nil => simp at h
  | cons it rest ih =>
    by_cases hit : it.length < 2
    · simp [ratioFilter, ratioStep_error_of_short matched it hit]
    · obtain ⟨m, hm⟩ := ratioStep_ok_of_two matched it (by omega)
      have h2 : ∃ x ∈ rest, x.length < 2 := by
        obtain ⟨x, hx, hlen⟩ := h
        rcases List.mem_cons.mp hx with rfl | hx
        · exact absurd hlen hit
        · exact ⟨x, hx, hlen⟩
      simp [ratioFilter, hm, ih m h2]

/-! ## Lemmas about the suppression loop -/

section
variable (overlap : KeyPoint → KeyPoint → ℚ) (maxOverlap : ℚ) (temp : KeyPoint)

theorem scanKeypoints_spec (l : List KeyPoint) (f : Bool) :
    ((∀ k ∈ l, ¬ overlap temp k > maxOverlap) ∧
        scanKeypoints overlap maxOverlap temp l f = (l, f)) ∨
    (∃ pre k post, l = pre ++ k :: post ∧
        (∀ x ∈ pre, ¬ (overlap temp x > maxOverlap ∧ temp.response > x.response)) ∧
        overlap temp k > maxOverlap ∧ temp.response > k.response ∧
        scanKeypoints overlap maxOverlap temp l f = (pre ++ temp :: post, true)) ∨
    ((∃ k ∈ l, overlap temp k > maxOverlap) ∧
        (∀ k ∈ l, overlap temp k > maxOverlap → ¬ temp.response > k.response) ∧
        scanKeypoints overlap maxOverlap temp l f = (l, true)) := by
  induction l generalizing f with
  | nil => left; simp [scanKeypoints]
  | cons k rest ih =>
    by_cases hov : overlap temp k > maxOverlap
    · by_cases hst : temp.response > k.response
      · right; left
        exact ⟨[], k, rest, rfl, by simp, hov, hst, by simp [scanKeypoints, hov, hst]⟩
      · have hscan : scanKeypoints overlap maxOverlap temp (k :: rest) f
            = (k :: (scanKeypoints overlap maxOverlap temp rest true).1,
                (scanKeypoints overlap maxOverlap temp rest true).2) := by
          simp [scanKeypoints, hov, hst]
        rcases ih true with ⟨hno, he⟩ | ⟨pre, k1, post, hl, hpre, hov1, hst1, he⟩ | ⟨hex, hall, he⟩
        · right; right
          refine ⟨⟨k, List.mem_cons_self _ _, hov⟩, ?_, by rw [hscan, he]⟩
          intro x hx hxo
          rcases List.mem_cons.mp hx with rfl | hx
          · exact hst
          · exact absurd hxo (hno x hx)
        · right; left
          refine ⟨k :: pre, k1, post, by simp [hl], ?_, hov1, hst1, by rw [hscan, he]; rfl⟩
          intro x hx
          rcases List.mem_cons.mp hx with rfl | hx
          · exact fun h => hst h.2
          · exact hpre x hx
        · right; right
          refine ⟨⟨k, List.mem_cons_self _ _, hov⟩, ?_, by rw [hscan, he]⟩
          intro x hx hxo
          rcases List.mem_cons.mp hx with rfl | hx
          · exact hst
          · exact hall x hx hxo
    · have hscan : scanKeypoints overlap maxOverlap temp (k :: rest) f
          = (k :: (scanKeypoints overlap maxOverlap temp rest f).1,
              (scanKeypoints overlap maxOverlap temp rest f).2) := by
        simp [scanKeypoints, hov]
      rcases ih f with ⟨hno, he⟩ | ⟨pre, k1, post, hl, hpre, hov1, hst1, he⟩ | ⟨hex, hall, he⟩
      · left
        refine ⟨?_, by rw [hscan, he]⟩
        intro x hx
        rcases List.mem_cons.mp hx with rfl | hx
        · exact hov
        · exact hno x hx
      · right; left
        refine ⟨k :: pre, k1, post, by simp [hl], ?_, hov1, hst1, by rw [hscan, he]; rfl⟩
        intro x hx
        rcases List.mem_cons.mp hx with rfl | hx
        · exact fun h => hov h.1
        · exact hpre x hx
      · right; right
        obtain ⟨x, hx, hxo⟩ := hex
        refine ⟨⟨x, List.mem_cons_of_mem _ hx, hxo⟩, ?_, by rw [hscan, he]⟩
        intro y hy hyo
        rcases List.mem_cons.mp hy with rfl | hy
        · exact absurd hyo hov
        · exact hall y hy hyo

theorem processCandidate_spec (l : List KeyPoint) :
    ((∀ k ∈ l, ¬ overlap temp k > maxOverlap) ∧
        processCandidate overlap maxOverlap l temp = l ++ [temp]) ∨
    (∃ pre k post, l = pre ++ k :: post ∧
        (∀ x ∈ pre, ¬ (overlap temp x > maxOverlap ∧ temp.response > x.response)) ∧
        overlap temp k > maxOverlap ∧ temp.response > k.response ∧
        processCandidate overlap maxOverlap l temp = pre ++ temp :: post) ∨
    ((∃ k ∈ l, overlap temp k > maxOverlap) ∧
        (∀ k ∈ l, overlap temp k > maxOverlap → ¬ temp.response > k.response) ∧
        processCandidate overlap maxOverlap l temp = l) := by
  rcases scanKeypoints_spec overlap maxOverlap temp l false with
    ⟨hno, he⟩ | ⟨pre, k1, post, hl, hpre, hov1, hst1, he⟩ | ⟨hex, hall, he⟩
  · left; exact ⟨hno, by simp [processCandidate, he]⟩
  · right; left; exact ⟨pre, k1, post, hl, hpre, hov1, hst1, by simp [processCandidate, he]⟩
  · right; right; exact ⟨hex, hall, by simp [processCandidate, he]⟩

end

theorem foldl_filterMap_step {α β γ : Type} (step : γ → β → γ) (p : α → Option β)
    (l : List α) (acc : γ) :
    l.foldl (fun a x => (p x).elim a (step a)) acc = (l.filterMap p).foldl step acc := by
  induction l generalizing acc with
  | nil => rfl
  | cons x xs ih =>
    cases hx : p x with
    | none => simp [List.filterMap_cons, hx, ih]
    | some t => simp [List.filterMap_cons, hx, ih]

theorem foldl_flatMap_step {α β γ : Type} (step : γ → β → γ) (g : α → List β)
    (l : List α) (acc : γ) :
    l.foldl (fun a x => (g x).foldl step a) acc = (l.flatMap g).foldl step acc := by
  induction l generalizing acc with
  | nil => rfl
  | cons x xs ih => simp [List.flatMap_cons, List.foldl_append, ih]

theorem processPixel_eq (overlap : KeyPoint → KeyPoint → ℚ) (maxOverlap : ℚ) (dst_norm : Mat)
    (r c : Nat) (kps : List KeyPoint) :
    processPixel overlap maxOverlap dst_norm r c kps =
      (pixelCandidate dst_norm r c).elim kps (processCandidate overlap maxOverlap kps) := by
  unfold processPixel pixelCandidate
  by_cases h : truncToInt (dst_norm.atFloat r c) > minResponse <;> simp [h]

/-- The double loop is the fold of the per-candidate step over the candidates of the grid. -/
theorem harrisLoop_eq_foldl (overlap : KeyPoint → KeyPoint → ℚ) (maxOverlap : ℚ)
    (keypoints : List KeyPoint) (dst_norm : Mat) :
    harrisLoop overlap maxOverlap keypoints dst_norm =
      (candidates dst_norm).foldl (processCandidate overlap maxOverlap) keypoints := by
  unfold harrisLoop candidates
  rw [← foldl_flatMap_step]
  congr 1
  funext kps r
  rw [← foldl_filterMap_step]
  congr 1
  funext kps1 c
  exact processPixel_eq overlap maxOverlap dst_norm r c kps1

section
variable (overlap : KeyPoint → KeyPoint → ℚ) (maxOverlap : ℚ)

theorem processCandidate_length_ge (l : List KeyPoint) (temp : KeyPoint) :
    l.length ≤ (processCandidate overlap maxOverlap l temp).length := by
  rcases processCandidate_spec overlap maxOverlap temp l with
    ⟨_, he⟩ | ⟨pre, k, post, hl, _, _, _, he⟩ | ⟨_, _, he⟩
  · simp [he]
  · rw [he, hl]; simp
  · simp [he]

theorem processCandidate_length_le (l : List KeyPoint) (temp : KeyPoint) :
    (processCandidate overlap maxOverlap l temp).length ≤ l.length + 1 := by
  rcases processCandidate_spec overlap maxOverlap temp l with
    ⟨_, he⟩ | ⟨pre, k, post, hl, _, _, _, he⟩ | ⟨_, _, he⟩
  · simp [he]
  · rw [he, hl]; simp
  · simp [he]

theorem foldl_processCandidate_length_le (cs l : List KeyPoint) :
    (cs.foldl (processCandidate overlap maxOverlap) l).length ≤ l.length + cs.length := by
  induction cs generalizing l with
  | nil => simp
  | cons t cs ih =>
    have h1 := ih (processCandidate overlap maxOverlap l t)
    have h2 := processCandidate_length_le overlap maxOverlap l t
    simp only [List.foldl_cons, List.length_cons]
    omega

/-- When no candidate overlaps an earlier keypoint above the threshold, every candidate is
appended. -/
theorem foldl_processCandidate_append (cs l : List KeyPoint)
    (hl : ∀ t ∈ cs, ∀ k ∈ l, ¬ overlap t k > maxOverlap)
    (hcs : cs.Pairwise (fun a b => ¬ overlap b a > maxOverlap)) :
    cs.foldl (processCandidate overlap maxOverlap) l = l ++ cs := by
  induction cs generalizing l with
  | nil => simp
  | cons t cs ih =>
    have hstep : processCandidate overlap maxOverlap l t = l ++ [t] := by
      rcases processCandidate_spec overlap maxOverlap t l with
        ⟨_, he⟩ | ⟨pre, k, post, hpk, _, hov, _, _⟩ | ⟨⟨k, hk, hov⟩, _, _⟩
      · exact he
      · exact absurd hov (hl t (List.mem_cons_self _ _) k (by simp [hpk]))
      · exact absurd hov (hl t (List.mem_cons_self _ _) k hk)
    rw [List.pairwise_cons] at hcs
    simp only [List.foldl_cons, hstep]
    rw [ih (l ++ [t]) ?_ hcs.2]
    · simp
    · intro t1 ht1 k hk
      rcases List.mem_append.mp hk with hk | hk
      · exact hl t1 (List.mem_cons_of_mem _ ht1) k hk
      · rw [List.mem_singleton] at hk
        subst hk
        exact hcs.1 t1 ht1

end

section
variable (overlap : KeyPoint → KeyPoint → ℚ) (maxOverlap : ℚ)

/-- One step keeps the accepted list free of overlapping pairs when overlapping above the
threshold is a symmetric and transitive relation. -/
theorem processCandidate_pairwise
    (hsymm : ∀ a b, overlap a b > maxOverlap → overlap b a > maxOverlap)
    (htrans : ∀ a b c, overlap a b > maxOverlap → overlap b c > maxOverlap →
      overlap a c > maxOverlap)
    (l : List KeyPoint) (temp : KeyPoint)
    (hl : l.Pairwise (fun a b => ¬ overlap a b > maxOverlap ∧ ¬ overlap b a > maxOverlap)) :
    (processCandidate overlap maxOverlap l temp).Pairwise
      (fun a b => ¬ overlap a b > maxOverlap ∧ ¬ overlap b a > maxOverlap) := by
  rcases processCandidate_spec overlap maxOverlap temp l with
    ⟨hno, he⟩ | ⟨pre, k, post, hpk, _, hov, _, he⟩ | ⟨_, _, he⟩
  · rw [he, List.pairwise_append]
    refine ⟨hl, List.pairwise_singleton _ _, ?_⟩
    intro a ha b hb
    rw [List.mem_singleton] at hb
    subst hb
    exact ⟨fun h => hno a ha (hsymm _ _ h), hno a ha⟩
  · rw [he]
    subst hpk
    rw [List.pairwise_append, List.pairwise_cons] at hl ⊢
    obtain ⟨hpre, ⟨hk, hpost⟩, hcross⟩ := hl
    refine ⟨hpre, ⟨?_, hpost⟩, ?_⟩
    · intro b hb
      have hkb := hk b hb
      constructor
      · intro h
        exact hkb.1 (htrans _ _ _ (hsymm _ _ hov) h)
      · intro h
        exact hkb.1 (htrans _ _ _ (hsymm _ _ hov) (hsymm _ _ h))
    · intro a ha b hb
      rcases List.mem_cons.mp hb with rfl | hb
      · have hak := hcross a ha k (List.mem_cons_self _ _)
        constructor
        · intro h
          exact hak.1 (htrans _ _ _ h hov)
        · intro h
          exact hak.1 (htrans _ _ _ (hsymm _ _ h) hov)
      · exact hcross a ha b (List.mem_cons_of_mem _ hb)
  · rw [he]; exact hl

theorem foldl_processCandidate_pairwise
    (hsymm : ∀ a b, overlap a b > maxOverlap → overlap b a > maxOverlap)
    (htrans : ∀ a b c, overlap a b > maxOverlap → overlap b c > maxOverlap →
      overlap a c > maxOverlap)
    (cs l : List KeyPoint)
    (hl : l.Pairwise (fun a b => ¬ overlap a b > maxOverlap ∧ ¬ overlap b a > maxOverlap)) :
    (cs.foldl (processCandidate overlap maxOverlap) l).Pairwise
      (fun a b => ¬ overlap a b > maxOverlap ∧ ¬ overlap b a > maxOverlap) := by
  induction cs generalizing l with
  | nil => exact hl
  | cons t cs ih =>
    exact ih _ (processCandidate_pairwise overlap maxOverlap hsymm htrans l t hl)

theorem mem_processCandidate (l : List KeyPoint) (temp k : KeyPoint)
    (hk : k ∈ processCandidate overlap maxOverlap l temp) : k ∈ l ∨ k = temp := by
  rcases processCandidate_spec overlap maxOverlap temp l with
    ⟨_, he⟩ | ⟨pre, k1, post, hpk, _, _, _, he⟩ | ⟨_, _, he⟩
  · rw [he] at hk
    simpa using hk
  · rw [he] at hk
    subst hpk
    simp only [List.mem_append, List.mem_cons] at hk ⊢
    tauto
  · rw [he] at hk
    exact Or.inl hk

theorem processCandidate_nodup (l : List KeyPoint) (temp : KeyPoint) (hl : l.Nodup)
    (ht : temp ∉ l) : (processCandidate overlap maxOverlap l temp).Nodup := by
  rcases processCandidate_spec overlap maxOverlap temp l with
    ⟨_, he⟩ | ⟨pre, k1, post, hpk, _, _, _, he⟩ | ⟨_, _, he⟩
  · rw [he]
    exact List.Nodup.append hl (List.nodup_singleton _) (by simpa using ht)
  · rw [he]
    subst hpk
    rw [List.nodup_middle] at hl ⊢
    rw [List.nodup_cons] at hl ⊢
    refine ⟨?_, hl.2⟩
    intro h
    apply ht
    simp only [List.mem_append, List.mem_cons] at h ⊢
    tauto
  · rw [he]; exact hl

theorem foldl_processCandidate_nodup_subset (cs l : List KeyPoint) (hl : l.Nodup)
    (hcs : cs.Nodup) (hdisj : ∀ t ∈ cs, t ∉ l) :
    (cs.foldl (processCandidate overlap maxOverlap) l).Nodup ∧
      ∀ k ∈ cs.foldl (processCandidate overlap maxOverlap) l, k ∈ l ∨ k ∈ cs := by
  induction cs generalizing l with
  | nil => simp [hl]
  | cons t cs ih =>
    rw [List.nodup_cons] at hcs
    have h1 := processCandidate_nodup overlap maxOverlap l t hl (hdisj t (List.mem_cons_self _ _))
    have h2 : ∀ t1 ∈ cs, t1 ∉ processCandidate overlap maxOverlap l t := by
      intro t1 ht1 hmem
      rcases mem_processCandidate overlap maxOverlap l t t1 hmem with h | h
      · exact hdisj t1 (List.mem_cons_of_mem _ ht1) h
      · subst h; exact hcs.1 ht1
    obtain ⟨hn, hsub⟩ := ih _ h1 hcs.2 h2
    refine ⟨hn, ?_⟩
    intro k hk
    rcases hsub k hk with h | h
    · rcases mem_processCandidate overlap maxOverlap l t k h with h | h
      · exact Or.inl h
      · exact Or.inr (by simp [h])
    · exact Or.inr (List.mem_cons_of_mem _ h)

end

/-! ### Exactness of the conversion of small integers -/

theorem log2Fuel_pow_le (fuel n : Nat) (h : 1 ≤ n) : 2 ^ log2Fuel fuel n ≤ n := by
  induction fuel generalizing n with
  | zero => simpa [log2Fuel] using h
  | succ fuel ih =>
    unfold log2Fuel
    by_cases h2 : n < 2
    · simpa [h2] using h
    · simp only [h2, if_false]
      have := ih (n / 2) (by omega)
      rw [Nat.pow_add, Nat.pow_one]
      omega

theorem floorLog2_one_pow_le (n : Nat) (h : 1 ≤ n) :
    0 ≤ floorLog2 n 1 ∧ 2 ^ (floorLog2 n 1).toNat ≤ n := by
  have hlog : 2 ^ natLog2 n ≤ n := log2Fuel_pow_le n n h
  have h1 : natLog2 1 = 0 := by decide
  have heq : floorLog2 n 1 = (natLog2 n : ℤ) := by
    unfold floorLog2
    simp [h1, hlog]
  rw [heq]
  exact ⟨Nat.cast_nonneg _, by simpa using hlog⟩

theorem roundHalfEven_one (n : Nat) : roundHalfEven n 1 = n := by
  simp [roundHalfEven, Nat.mod_one]

theorem round32_natCast (n : Nat) (h : n ≤ 2 ^ 24) : round32 (n : ℚ) = n := by
  rcases Nat.eq_zero_or_pos n with rfl | hpos
  · simp [round32]
  · obtain ⟨he0, hpow⟩ := floorLog2_one_pow_le n hpos
    have hne : (n : ℚ) ≠ 0 := by exact_mod_cast hpos.ne'
    have hnneg : ¬ (n : ℚ) < 0 := by simp
    have he24 : floorLog2 n 1 ≤ 24 := by
      by_contra hgt
      have h25 : 25 ≤ (floorLog2 n 1).toNat := by omega
      have : 2 ^ 25 ≤ 2 ^ (floorLog2 n 1).toNat := Nat.pow_le_pow_right (by norm_num) h25
      omega
    unfold round32
    simp only [hne, if_false, hnneg, Rat.num_natCast, Int.natAbs_ofNat, Rat.den_natCast, one_mul]
    by_cases hu : 0 ≤ max (floorLog2 n 1 - 23) (-149)
    · simp only [hu, if_true]
      have hcase : floorLog2 n 1 = 23 ∨ floorLog2 n 1 = 24 := by
        rcases le_max_iff.mp hu with h1 | h1 <;> omega
      rcases hcase with h23 | h24
      · simp [h23, roundHalfEven_one]
      · have hn : n = 2 ^ 24 := by
          rw [h24] at hpow
          have : (24 : ℤ).toNat = 24 := rfl
          rw [this] at hpow
          omega
        have hu1 : max (floorLog2 n 1 - 23) (-149) = 1 := by rw [h24]; rfl
        have h2 : roundHalfEven n (2 ^ (1 : ℤ).toNat) * 2 ^ (1 : ℤ).toNat = n := by
          rw [hn]; decide
        rw [hu1, h2]
    · simp only [hu, if_false, roundHalfEven_one]
      rw [Rat.mkRat_eq_div]
      push_cast
      field_simp

theorem intToFloat_natCast (n : Nat) (h : n ≤ 2 ^ 24) : intToFloat (n : Int) = n := by
  unfold intToFloat
  exact_mod_cast round32_natCast n h

/-! ### Candidates of a grid -/

theorem truncToInt_intCast (v : Int) : truncToInt (v : ℚ) = v := by
  simp [truncToInt]

theorem truncToInt_zero : truncToInt 0 = 0 := by
  simp [truncToInt]

/-- On non-negative values truncation toward zero is the floor. -/
theorem truncToInt_eq_floor (q : ℚ) (h : 0 ≤ q) : truncToInt q = ⌊q⌋ := by
  rw [Rat.floor_def]
  unfold truncToInt
  exact Int.tdiv_eq_ediv (Rat.num_nonneg.mpr h) (Int.ofNat_nonneg _)

/-- Below `2 ^ 24 + 1` rows and columns the position of a candidate is its pixel. -/
theorem candidate_pt (c r : Nat) (v : Int) (hc : c ≤ 2 ^ 24) (hr : r ≤ 2 ^ 24) :
    (candidate c r v).pt = ⟨(c : ℚ), (r : ℚ)⟩ := by
  simp only [candidate, intToFloat_natCast c hc, intToFloat_natCast r hr]

theorem candidate_response (c r : Nat) (v : Int) : (candidate c r v).response = (v : ℚ) := rfl

theorem candidate_eq_explicit (c r : Nat) (v : Int) (hc : c ≤ 2 ^ 24) (hr : r ≤ 2 ^ 24) :
    candidate c r v =
      { pt := ⟨(c : ℚ), (r : ℚ)⟩, size := 6, angle := -1, response := (v : ℚ),
        octave := 0, class_id := -1 } := by
  simp only [candidate, defaultKeyPoint, apertureSize, intToFloat_natCast c hc,
    intToFloat_natCast r hr]
  norm_num

theorem mem_candidates (dst_norm : Mat) (k : KeyPoint) :
    k ∈ candidates dst_norm ↔
      ∃ r c, r < dst_norm.rows ∧ c < dst_norm.cols ∧
        truncToInt (dst_norm.atFloat r c) > minResponse ∧
        k = candidate c r (truncToInt (dst_norm.atFloat r c)) := by
  simp only [candidates, List.mem_flatMap, List.mem_filterMap, List.mem_range, pixelCandidate]
  constructor
  · rintro ⟨r, hr, c, hc, h⟩
    by_cases hv : truncToInt (dst_norm.atFloat r c) > minResponse
    · rw [if_pos hv] at h
      exact ⟨r, c, hr, hc, hv, (Option.some.inj h).symm⟩
    · rw [if_neg hv] at h
      exact absurd h (by simp)
  · rintro ⟨r, c, hr, hc, hv, rfl⟩
    exact ⟨r, hr, c, hc, by rw [if_pos hv]⟩

/-- Every candidate of a grid has a response above 100 (line 161). -/
theorem candidates_response_gt (dst_norm : Mat) (k : KeyPoint) (hk : k ∈ candidates dst_norm) :
    k.response > 100 := by
  obtain ⟨r, c, _, _, hv, rfl⟩ := (mem_candidates dst_norm k).mp hk
  rw [candidate_response]
  have : (100 : ℤ) < truncToInt (dst_norm.atFloat r c) := hv
  exact_mod_cast this

theorem candidate_inj {c r c1 r1 : Nat} {v v1 : Int}
    (hc : c ≤ 2 ^ 24) (hr : r ≤ 2 ^ 24) (hc1 : c1 ≤ 2 ^ 24) (hr1 : r1 ≤ 2 ^ 24)
    (h : (candidate c r v).pt = (candidate c1 r1 v1).pt) : c = c1 ∧ r = r1 := by
  rw [candidate_pt c r v hc hr, candidate_pt c1 r1 v1 hc1 hr1] at h
  simp only [Point2f.mk.injEq] at h
  exact ⟨by exact_mod_cast h.1, by exact_mod_cast h.2⟩

theorem pairwise_range_bounded (n : Nat) :
    (List.range n).Pairwise (fun a b => a < n ∧ b < n ∧ a ≠ b) := by
  have h := List.Pairwise.and_mem.mp (List.pairwise_lt_range n)
  exact h.imp (fun ⟨ha, hb, hlt⟩ => ⟨List.mem_range.mp ha, List.mem_range.mp hb, Nat.ne_of_lt hlt⟩)

theorem candidates_nodup (dst_norm : Mat) (hrows : dst_norm.rows ≤ 2 ^ 24 + 1)
    (hcols : dst_norm.cols ≤ 2 ^ 24 + 1) : (candidates dst_norm).Nodup := by
  unfold candidates
  rw [List.nodup_flatMap]
  constructor
  · intro r hr
    have hr24 : r ≤ 2 ^ 24 := by have := List.mem_range.mp hr; omega
    apply List.Pairwise.filterMap _ _ (pairwise_range_bounded dst_norm.cols)
    rintro c c1 ⟨hc, hc1, hne⟩ k hk k1 hk1 rfl
    simp only [pixelCandidate, Option.mem_def] at hk hk1
    split at hk <;> split at hk1 <;> simp at hk hk1
    exact hne (candidate_inj (by omega) hr24 (by omega) hr24 (hk.trans hk1.symm ▸ rfl :
      (candidate c r (truncToInt (dst_norm.atFloat r c))).pt =
        (candidate c1 r (truncToInt (dst_norm.atFloat r c1))).pt)).1
  · apply List.Pairwise.imp _ (pairwise_range_bounded dst_norm.rows)
    rintro r r1 ⟨hr, hr1, hne⟩
    simp only [Function.onFun, List.disjoint_left, List.mem_filterMap, List.mem_range,
      pixelCandidate]
    rintro k ⟨c, hc, hk⟩ ⟨c1, hc1, hk1⟩
    split at hk <;> split at hk1 <;> simp at hk hk1
    exact hne (candidate_inj (by omega) (by omega) (by omega) (by omega)
      (hk.trans hk1.symm ▸ rfl :
      (candidate c r (truncToInt (dst_norm.atFloat r c))).pt =
        (candidate c1 r1 (truncToInt (dst_norm.atFloat r1 c1))).pt)).2

/-! ### Writing keypoints back into a grid -/

theorem writeBack_at_cases (rows cols : Nat) (kps : List KeyPoint) (r c : Nat) :
    (writeBack rows cols kps).atFloat r c = 0 ∨
      ∃ k ∈ kps, k.pt = ⟨(c : ℚ), (r : ℚ)⟩ ∧
        (writeBack rows cols kps).atFloat r c = k.response := by
  simp only [writeBack]
  cases hfind : kps.find? (fun k => decide (k.pt = ⟨(c : ℚ), (r : ℚ)⟩)) with
  | none => left; rfl
  | some k =>
    right
    refine ⟨k, List.mem_of_find?_eq_some hfind, ?_, rfl⟩
    simpa using List.find?_some hfind

theorem writeBack_at_of_mem (rows cols : Nat) (kps : List KeyPoint)
    (hpos : ∀ k ∈ kps, ∀ k1 ∈ kps, k.pt = k1.pt → k = k1)
    (k : KeyPoint) (hk : k ∈ kps) (r c : Nat) (hpt : k.pt = ⟨(c : ℚ), (r : ℚ)⟩) :
    (writeBack rows cols kps).atFloat r c = k.response := by
  simp only [writeBack]
  cases hfind : kps.find? (fun k => decide (k.pt = ⟨(c : ℚ), (r : ℚ)⟩)) with
  | none =>
    rw [List.find?_eq_none] at hfind
    exact absurd hpt (by simpa using hfind k hk)
  | some k1 =>
    have h1 : k1.pt = ⟨(c : ℚ), (r : ℚ)⟩ := by simpa using List.find?_some hfind
    have h2 := hpos k1 (List.mem_of_find?_eq_some hfind) k hk (h1.trans hpt.symm)
    simp [h2]

/-- Writing a duplicate-free list of candidate keypoints back into a zero grid of at most
`2 ^ 24 + 1` rows and columns yields a grid whose candidates are these keypoints, in
row-major order. -/
theorem candidates_writeBack_perm (rows cols : Nat) (kps : List KeyPoint)
    (hrows : rows ≤ 2 ^ 24 + 1) (hcols : cols ≤ 2 ^ 24 + 1)
    (hform : ∀ k ∈ kps, ∃ r c v, r < rows ∧ c < cols ∧ v > minResponse ∧ k = candidate c r v)
    (hnodup : kps.Nodup)
    (hpos : ∀ k ∈ kps, ∀ k1 ∈ kps, k.pt = k1.pt → k = k1) :
    (candidates (writeBack rows cols kps)).Perm kps := by
  rw [List.perm_ext_iff_of_nodup (candidates_nodup _ hrows hcols) hnodup]
  intro k
  rw [mem_candidates]
  constructor
  · rintro ⟨r, c, hr, hc, hv, hk⟩
    have hr0 : r < rows := hr
    have hc0 : c < cols := hc
    rcases writeBack_at_cases rows cols kps r c with h0 | ⟨k1, hk1, hpt, hresp⟩
    · rw [h0, truncToInt_zero] at hv
      exact absurd hv (by decide)
    · obtain ⟨r1, c1, v1, hr1, hc1, _, hform1⟩ := hform k1 hk1
      have hpt1 : (candidate c1 r1 v1).pt = (candidate c r 0).pt := by
        rw [← hform1, hpt, candidate_pt c r 0 (by omega) (by omega)]
      obtain ⟨hcc, hrr⟩ := candidate_inj (by omega) (by omega) (by omega) (by omega) hpt1
      subst hcc hrr
      have hresp1 : k1.response = (v1 : ℚ) := by rw [hform1]; rfl
      rw [hresp, hresp1, truncToInt_intCast] at hk
      rw [hk, ← hform1]
      exact hk1
  · intro hk
    obtain ⟨r, c, v, hr, hc, hv, hkform⟩ := hform k hk
    have hpt : k.pt = ⟨(c : ℚ), (r : ℚ)⟩ := by
      rw [hkform, candidate_pt c r v (by omega) (by omega)]
    have hresp : k.response = (v : ℚ) := by rw [hkform]; rfl
    have hat := writeBack_at_of_mem rows cols kps hpos k hk r c hpt
    refine ⟨r, c, hr, hc, ?_, ?_⟩
    · rw [hat, hresp, truncToInt_intCast]; exact hv
    · rw [hat, hresp, truncToInt_intCast]; exact hkform

theorem foldl_processCandidate_subset (overlap : KeyPoint → KeyPoint → ℚ) (maxOverlap : ℚ)
    (cs l : List KeyPoint) :
    ∀ k ∈ cs.foldl (processCandidate overlap maxOverlap) l, k ∈ l ∨ k ∈ cs := by
  induction cs generalizing l with
  | nil => intro k hk; exact Or.inl hk
  | cons t cs ih =>
    intro k hk
    rcases ih _ k hk with h | h
    · rcases mem_processCandidate overlap maxOverlap l t k h with h | h
      · exact Or.inl h
      · exact Or.inr (by simp [h])
    · exact Or.inr (List.mem_cons_of_mem _ h)

/-- The keypoints returned from an empty list are candidates of the grid. -/
theorem harrisLoop_subset (overlap : KeyPoint → KeyPoint → ℚ) (maxOverlap : ℚ)
    (dst_norm : Mat) :
    ∀ k ∈ harrisLoop overlap maxOverlap [] dst_norm, k ∈ candidates dst_norm := by
  rw [harrisLoop_eq_foldl]
  intro k hk
  rcases foldl_processCandidate_subset overlap maxOverlap _ [] k hk with h | h
  · simp at h
  · exact h

/-- On a grid of at most `2 ^ 24 + 1` rows and columns the keypoints returned from an
empty list are distinct. -/
theorem harrisLoop_nodup (overlap : KeyPoint → KeyPoint → ℚ) (maxOverlap : ℚ)
    (dst_norm : Mat) (hrows : dst_norm.rows ≤ 2 ^ 24 + 1) (hcols : dst_norm.cols ≤ 2 ^ 24 + 1) :
    (harrisLoop overlap maxOverlap [] dst_norm).Nodup := by
  rw [harrisLoop_eq_foldl]
  exact (foldl_processCandidate_nodup_subset overlap maxOverlap
    (candidates dst_norm) [] List.nodup_nil (candidates_nodup dst_norm hrows hcols)
    (by simp)).1

/-- Idempotence of the loop on a result without overlapping pairs, for grids of at most
`2 ^ 24 + 1` rows and columns. -/
theorem harrisLoop_writeBack (overlap : KeyPoint → KeyPoint → ℚ) (maxOverlap : ℚ)
    (dst_norm : Mat) (hrows : dst_norm.rows ≤ 2 ^ 24 + 1) (hcols : dst_norm.cols ≤ 2 ^ 24 + 1)
    (h : (harrisLoop overlap maxOverlap [] dst_norm).Pairwise
      (fun a b => ¬ overlap a b > maxOverlap ∧ ¬ overlap b a > maxOverlap)) :
    harrisLoop overlap maxOverlap []
        (writeBack dst_norm.rows dst_norm.cols (harrisLoop overlap maxOverlap [] dst_norm))
      = candidates
        (writeBack dst_norm.rows dst_norm.cols (harrisLoop overlap maxOverlap [] dst_norm)) ∧
    (candidates
        (writeBack dst_norm.rows dst_norm.cols (harrisLoop overlap maxOverlap [] dst_norm))).Perm
      (harrisLoop overlap maxOverlap [] dst_norm) := by
  have hnodup := harrisLoop_nodup overlap maxOverlap dst_norm hrows hcols
  have hsub := harrisLoop_subset overlap maxOverlap dst_norm
  have hform : ∀ k ∈ harrisLoop overlap maxOverlap [] dst_norm,
      ∃ r c v, r < dst_norm.rows ∧ c < dst_norm.cols ∧ v > minResponse ∧
        k = candidate c r v := by
    intro k hk
    obtain ⟨r, c, hr, hc, hv, hkc⟩ := (mem_candidates dst_norm k).mp (hsub k hk)
    exact ⟨r, c, _, hr, hc, hv, hkc⟩
  have hpos : ∀ k ∈ harrisLoop overlap maxOverlap [] dst_norm,
      ∀ k1 ∈ harrisLoop overlap maxOverlap [] dst_norm, k.pt = k1.pt → k = k1 := by
    intro k hk k1 hk1 hpt
    obtain ⟨r, c, hr, hc, _, hkc⟩ := (mem_candidates dst_norm k).mp (hsub k hk)
    obtain ⟨r1, c1, hr1, hc1, _, hkc1⟩ := (mem_candidates dst_norm k1).mp (hsub k1 hk1)
    rw [hkc, hkc1] at hpt
    obtain ⟨hcc, hrr⟩ := candidate_inj (by omega) (by omega) (by omega) (by omega) hpt
    subst hcc hrr
    rw [hkc, hkc1]
  have hperm := candidates_writeBack_perm dst_norm.rows dst_norm.cols _ hrows hcols hform
    hnodup hpos
  refine ⟨?_, hperm⟩
  rw [harrisLoop_eq_foldl]
  have hpw := (List.Perm.pairwise_iff (R := fun a b : KeyPoint =>
    ¬ overlap a b > maxOverlap ∧ ¬ overlap b a > maxOverlap)
    (fun {x y} hxy => ⟨hxy.2, hxy.1⟩) hperm).mpr h
  have := foldl_processCandidate_append overlap maxOverlap _ [] (by simp)
    (hpw.imp (fun {a b} hab => hab.2))
  simpa using this

/-- Without suppression the loop appends the candidates of the grid. -/
theorem harrisLoop_of_bounded (overlap : KeyPoint → KeyPoint → ℚ) (maxOverlap : ℚ)
    (keypoints : List KeyPoint) (dst_norm : Mat) (h : ∀ a b, overlap a b ≤ maxOverlap) :
    harrisLoop overlap maxOverlap keypoints dst_norm = keypoints ++ candidates dst_norm := by
  rw [harrisLoop_eq_foldl]
  apply foldl_processCandidate_append
  · intro t _ k _
    exact not_lt.mpr (h t k)
  · exact List.pairwise_of_forall (fun a b => not_lt.mpr (h b a))

/-! ### Grids with few non-zero pixels -/

theorem filterMap_range_sparse {β : Type} (f : Nat → Option β) (a b : Nat) (hab : a < b)
    (hnone : ∀ c, c ≠ a → c ≠ b → f c = none) (n : Nat) :
    (List.range n).filterMap f =
      (if a < n then (f a).toList else []) ++ (if b < n then (f b).toList else []) := by
  induction n with
  | zero => simp
  | succ n ih =>
    rw [List.range_succ, List.filterMap_append, ih]
    rcases Nat.lt_trichotomy n a with hlt | heq | hgt
    · have h1 : ¬ a < n := by omega
      have h2 : ¬ b < n := by omega
      have h3 : ¬ a < n + 1 := by omega
      have h4 : ¬ b < n + 1 := by omega
      simp [h1, h2, h3, h4, hnone n (by omega) (by omega)]
    · subst heq
      have h2 : ¬ b < n := by omega
      have h4 : ¬ b < n + 1 := by omega
      cases hf : f n <;> simp [h2, h4, hf]
    · rcases Nat.lt_trichotomy n b with hlt | heq | hgt2
      · have h2 : ¬ b < n := by omega
        have h3 : a < n + 1 := by omega
        have h4 : ¬ b < n + 1 := by omega
        simp [hgt, h2, h3, h4, hnone n (by omega) (by omega)]
      · subst heq
        have h3 : a < n + 1 := by omega
        cases hf : f n <;> simp [hgt, h3, hf]
      · have h2 : b < n := hgt2
        have h3 : a < n + 1 := by omega
        have h4 : b < n + 1 := by omega
        simp [hgt, h2, h3, h4, hnone n (by omega) (by omega)]

theorem scanKeypoints_replace (overlap : KeyPoint → KeyPoint → ℚ) (maxOverlap : ℚ)
    (temp k : KeyPoint) (pre post : List KeyPoint) (f : Bool)
    (hpre : ∀ x ∈ pre, ¬ (overlap temp x > maxOverlap ∧ temp.response > x.response))
    (hov : overlap temp k > maxOverlap) (hst : temp.response > k.response) :
    scanKeypoints overlap maxOverlap temp (pre ++ k :: post) f = (pre ++ temp :: post, true) := by
  induction pre generalizing f with
  | nil => simp [scanKeypoints, hov, hst]
  | cons x pre ih =>
    have hx := hpre x (List.mem_cons_self _ _)
    have hrest : ∀ y ∈ pre, ¬ (overlap temp y > maxOverlap ∧ temp.response > y.response) :=
      fun y hy => hpre y (List.mem_cons_of_mem _ hy)
    by_cases hxo : overlap temp x > maxOverlap
    · have hxs : ¬ temp.response > x.response := fun h => hx ⟨hxo, h⟩
      simp [scanKeypoints, hxo, hxs, ih true hrest]
    · simp [scanKeypoints, hxo, ih f hrest]

theorem set_length_middle (pre post : List KeyPoint) (k temp : KeyPoint) :
    (pre ++ k :: post).set pre.length temp = pre ++ temp :: post := by
  induction pre with
  | nil => rfl
  | cons x pre ih => simp [ih]

theorem distOverlap_le (a b : KeyPoint) : distOverlap a b ≤ 200 := by
  unfold distOverlap
  apply max_le (by norm_num)
  nlinarith [sq_nonneg (a.pt.x - b.pt.x), sq_nonneg (a.pt.y - b.pt.y)]

theorem ratioOverlap_le (a b : KeyPoint) : ratioOverlap a b ≤ 100 := by
  unfold ratioOverlap
  have := distOverlap_le a b
  linarith

theorem cellOverlap_gt_iff (a b : KeyPoint) :
    cellOverlap a b > 100 ↔
      (truncToInt (a.pt.x / 4) = truncToInt (b.pt.x / 4) ∧
        truncToInt (a.pt.y / 4) = truncToInt (b.pt.y / 4)) := by
  unfold cellOverlap
  split <;> rename_i h
  · simp only [h, and_self, iff_true]; norm_num
  · simp only [h, iff_false]; norm_num

theorem nestedOverlap_gt_100_iff (a b : KeyPoint) :
    nestedOverlap a b > 100 ↔
      (truncToInt (a.pt.x / 8) = truncToInt (b.pt.x / 8) ∧
        truncToInt (a.pt.y / 8) = truncToInt (b.pt.y / 8)) := by
  unfold nestedOverlap
  split <;> rename_i h8
  · split <;> simp only [h8, and_self, iff_true] <;> norm_num
  · simp only [h8, iff_false]; norm_num

/-- A list whose entries are matched injectively to entries of a second list is at most as
long as the second list. -/
theorem length_le_of_injective_rel (R : KeyPoint → KeyPoint → Prop) (l1 l2 : List KeyPoint)
    (hnodup : l1.Nodup) (hex : ∀ a ∈ l1, ∃ b ∈ l2, R a b)
    (hinj : ∀ a1 ∈ l1, ∀ a2 ∈ l1, ∀ b, R a1 b → R a2 b → a1 = a2) :
    l1.length ≤ l2.length := by
  induction l1 generalizing l2 with
  | nil => simp
  | cons a rest ih =>
    rw [List.nodup_cons] at hnodup
    obtain ⟨b, hb, hab⟩ := hex a (List.mem_cons_self _ _)
    have hrest : ∀ x ∈ rest, ∃ y ∈ l2.erase b, R x y := by
      intro x hx
      obtain ⟨y, hy, hxy⟩ := hex x (List.mem_cons_of_mem _ hx)
      have hne : y ≠ b := by
        rintro rfl
        have := hinj a (List.mem_cons_self _ _) x (List.mem_cons_of_mem _ hx) y hab hxy
        exact hnodup.1 (this ▸ hx)
      exact ⟨y, (List.mem_erase_of_ne hne).mpr hy, hxy⟩
    have hinj1 : ∀ a1 ∈ rest, ∀ a2 ∈ rest, ∀ y, R a1 y → R a2 y → a1 = a2 :=
      fun a1 h1 a2 h2 y => hinj a1 (List.mem_cons_of_mem _ h1) a2 (List.mem_cons_of_mem _ h2) y
    have h1 := ih (l2.erase b) hnodup.2 hrest hinj1
    have h2 := List.length_erase_of_mem hb
    have h3 : 0 < l2.length := List.length_pos_of_mem hb
    simp only [List.length_cons]
    omega

/-! ### Threshold monotonicity for a transitive overlap relation -/

section
variable (overlap : KeyPoint → KeyPoint → ℚ) (t1 maxOverlap : ℚ)

/-- One step at the threshold `maxOverlap` keeps every keypoint represented with respect
to the coarser threshold `t1`: it overlaps, above `t1`, an entry of the list. -/
theorem processCandidate_represented (h : t1 ≤ maxOverlap)
    (hsymm : ∀ a b, overlap a b > t1 → overlap b a > t1)
    (htrans : ∀ a b c, overlap a b > t1 → overlap b c > t1 → overlap a c > t1)
    (l : List KeyPoint) (temp c : KeyPoint)
    (hc : (c = temp ∧ overlap temp temp > t1) ∨ ∃ k ∈ l, overlap c k > t1) :
    ∃ k ∈ processCandidate overlap maxOverlap l temp, overlap c k > t1 := by
  rcases processCandidate_spec overlap maxOverlap temp l with
    ⟨_, he⟩ | ⟨pre, k1, post, hpk, _, hov, _, he⟩ | ⟨⟨k1, hk1, hov⟩, _, he⟩
  · rw [he]
    rcases hc with ⟨rfl, hrefl⟩ | ⟨k, hk, hck⟩
    · exact ⟨c, by simp, hrefl⟩
    · exact ⟨k, by simp [hk], hck⟩
  · rw [he]
    subst hpk
    have hov1 : overlap temp k1 > t1 := lt_of_le_of_lt h hov
    rcases hc with ⟨rfl, hrefl⟩ | ⟨k, hk, hck⟩
    · exact ⟨c, by simp, hrefl⟩
    · simp only [List.mem_append, List.mem_cons] at hk
      rcases hk with hk | rfl | hk
      · exact ⟨k, by simp [hk], hck⟩
      · exact ⟨temp, by simp, htrans _ _ _ hck (hsymm _ _ hov1)⟩
      · exact ⟨k, by simp [hk], hck⟩
  · rw [he]
    rcases hc with ⟨rfl, _⟩ | hc
    · exact ⟨k1, hk1, lt_of_le_of_lt h hov⟩
    · exact hc

theorem foldl_processCandidate_represented (h : t1 ≤ maxOverlap)
    (hsymm : ∀ a b, overlap a b > t1 → overlap b a > t1)
    (htrans : ∀ a b c, overlap a b > t1 → overlap b c > t1 → overlap a c > t1)
    (cs l : List KeyPoint) (c : KeyPoint)
    (hc : (c ∈ cs ∧ overlap c c > t1) ∨ ∃ k ∈ l, overlap c k > t1) :
    ∃ k ∈ cs.foldl (processCandidate overlap maxOverlap) l, overlap c k > t1 := by
  induction cs generalizing l with
  | nil =>
    rcases hc with ⟨hmem, _⟩ | hc
    · simp at hmem
    · simpa using hc
  | cons t cs ih =>
    simp only [List.foldl_cons]
    apply ih
    rcases hc with ⟨hmem, hrefl⟩ | hc
    · rcases List.mem_cons.mp hmem with rfl | hmem
      · exact Or.inr (processCandidate_represented overlap t1 maxOverlap h hsymm htrans l c c
          (Or.inl ⟨rfl, hrefl⟩))
      · exact Or.inl ⟨hmem, hrefl⟩
    · exact Or.inr (processCandidate_represented overlap t1 maxOverlap h hsymm htrans l t c
        (Or.inr hc))

/-- One step at the threshold `maxOverlap` changes the number of entries that overlap
nothing above `t1` only by appending such a candidate. -/
theorem processCandidate_countP_isolated (h : t1 ≤ maxOverlap)
    (hsymm : ∀ a b, overlap a b > t1 → overlap b a > t1)
    (htrans : ∀ a b c, overlap a b > t1 → overlap b c > t1 → overlap a c > t1)
    (l : List KeyPoint) (temp : KeyPoint) :
    (processCandidate overlap maxOverlap l temp).countP
        (fun k => decide (¬ overlap k k > t1)) =
      l.countP (fun k => decide (¬ overlap k k > t1)) +
        (if ¬ overlap temp temp > t1 then 1 else 0) := by
  rcases processCandidate_spec overlap maxOverlap temp l with
    ⟨hno, he⟩ | ⟨pre, k1, post, hpk, _, hov, _, he⟩ | ⟨⟨k1, hk1, hov⟩, _, he⟩
  · rw [he, List.countP_append]
    simp [List.countP_cons]
  · rw [he]
    subst hpk
    have hov1 : overlap temp k1 > t1 := lt_of_le_of_lt h hov
    have ht : overlap temp temp > t1 := htrans _ _ _ hov1 (hsymm _ _ hov1)
    have hk : overlap k1 k1 > t1 := htrans _ _ _ (hsymm _ _ hov1) hov1
    simp [List.countP_append, List.countP_cons, ht, hk]
  · rw [he]
    have hov1 : overlap temp k1 > t1 := lt_of_le_of_lt h hov
    have ht : overlap temp temp > t1 := htrans _ _ _ hov1 (hsymm _ _ hov1)
    simp [ht]

theorem foldl_processCandidate_countP_isolated (h : t1 ≤ maxOverlap)
    (hsymm : ∀ a b, overlap a b > t1 → overlap b a > t1)
    (htrans : ∀ a b c, overlap a b > t1 → overlap b c > t1 → overlap a c > t1)
    (cs l : List KeyPoint) :
    (cs.foldl (processCandidate overlap maxOverlap) l).countP
        (fun k => decide (¬ overlap k k > t1)) =
      l.countP (fun k => decide (¬ overlap k k > t1)) +
        cs.countP (fun k => decide (¬ overlap k k > t1)) := by
  induction cs generalizing l with
  | nil => simp
  | cons t cs ih =>
    simp only [List.foldl_cons]
    rw [ih, processCandidate_countP_isolated overlap t1 maxOverlap h hsymm htrans,
      List.countP_cons]
    by_cases ht : overlap t t > t1
    · simp [ht]
    · simp [ht]
      omega

end

/-- Threshold monotonicity of the whole loop when overlapping above the lower threshold is
a symmetric and transitive relation. -/
theorem harrisLoop_length_mono (overlap : KeyPoint → KeyPoint → ℚ) (t1 t2 : ℚ) (h : t1 ≤ t2)
    (hsymm : ∀ a b, overlap a b > t1 → overlap b a > t1)
    (htrans : ∀ a b c, overlap a b > t1 → overlap b c > t1 → overlap a c > t1)
    (dst_norm : Mat) :
    (harrisLoop overlap t1 [] dst_norm).length ≤ (harrisLoop overlap t2 [] dst_norm).length := by
  have hsub := harrisLoop_subset overlap t1 dst_norm
  have hpw : (harrisLoop overlap t1 [] dst_norm).Pairwise
      (fun a b => ¬ overlap a b > t1 ∧ ¬ overlap b a > t1) := by
    rw [harrisLoop_eq_foldl]
    exact foldl_processCandidate_pairwise overlap t1 hsymm htrans _ [] List.Pairwise.nil
  -- the entries that overlap nothing are the same in number
  have hiso : (harrisLoop overlap t1 [] dst_norm).countP (fun k => decide (¬ overlap k k > t1))
      = (harrisLoop overlap t2 [] dst_norm).countP (fun k => decide (¬ overlap k k > t1)) := by
    rw [harrisLoop_eq_foldl, harrisLoop_eq_foldl,
      foldl_processCandidate_countP_isolated overlap t1 t1 le_rfl hsymm htrans,
      foldl_processCandidate_countP_isolated overlap t1 t2 h hsymm htrans]
  -- the other entries of the first list are matched injectively to entries of the second
  have hrefl : ((harrisLoop overlap t1 [] dst_norm).filter
        (fun k => decide (overlap k k > t1))).length
      ≤ ((harrisLoop overlap t2 [] dst_norm).filter
        (fun k => decide (overlap k k > t1))).length := by
    have hpwf := hpw.filter (fun k => decide (overlap k k > t1))
    apply length_le_of_injective_rel (fun a b => overlap a b > t1)
    · refine hpwf.imp_of_mem ?_
      intro a b ha _ hab heq
      subst heq
      have : overlap a a > t1 := by simpa using (List.mem_filter.mp ha).2
      exact hab.1 this
    · intro a ha
      obtain ⟨ha1, ha2⟩ := List.mem_filter.mp ha
      have harefl : overlap a a > t1 := by simpa using ha2
      obtain ⟨k, hk, hak⟩ := foldl_processCandidate_represented overlap t1 t2 h hsymm htrans
        (candidates dst_norm) [] a (Or.inl ⟨hsub a ha1, harefl⟩)
      rw [← harrisLoop_eq_foldl] at hk
      refine ⟨k, List.mem_filter.mpr ⟨hk, ?_⟩, hak⟩
      simpa using htrans _ _ _ (hsymm _ _ hak) hak
    · intro a1 h1 a2 h2 b hab1 hab2
      by_contra hne
      have h12 : overlap a1 a2 > t1 := htrans _ _ _ hab1 (hsymm _ _ hab2)
      exact (hpwf.forall (fun x y hxy => ⟨hxy.2, hxy.1⟩) h1 h2 hne).1 h12
  have hlen1 := List.length_eq_countP_add_countP (fun k => decide (overlap k k > t1))
    (harrisLoop overlap t1 [] dst_norm)
  have hlen2 := List.length_eq_countP_add_countP (fun k => decide (overlap k k > t1))
    (harrisLoop overlap t2 [] dst_norm)
  rw [← List.countP_eq_length_filter, ← List.countP_eq_length_filter] at hrefl
  simp only [decide_eq_true_eq, decide_not] at hlen1 hlen2 hiso
  omega

/-! ### The wide grid -/

theorem candidate_wide_pt :
    (candidate 16777216 0 110).pt = ⟨16777216, 0⟩ ∧
    (candidate 16777217 0 120).pt = ⟨16777216, 0⟩ := by
  decide!

theorem candidates_wideGrid :
    candidates wideGrid = [candidate 16777216 0 110, candidate 16777217 0 120] := by
  have hnone : ∀ c, c ≠ 16777216 → c ≠ 16777217 → pixelCandidate wideGrid 0 c = none := by
    intro c h1 h2
    simp [pixelCandidate, wideGrid, h1, h2, truncToInt_zero, minResponse]
  have ha : pixelCandidate wideGrid 0 16777216 = some (candidate 16777216 0 110) := by decide!
  have hb : pixelCandidate wideGrid 0 16777217 = some (candidate 16777217 0 120) := by decide!
  have hrow := filterMap_range_sparse (pixelCandidate wideGrid 0) 16777216 16777217
    (by norm_num) hnone 16777218
  rw [ha, hb] at hrow
  have hcand : candidates wideGrid
      = (List.range 16777218).filterMap (pixelCandidate wideGrid 0) := by
    show (List.range 1).flatMap
      (fun r => (List.range 16777218).filterMap (pixelCandidate wideGrid r)) = _
    have hone : List.range 1 = [0] := rfl
    simp only [hone, List.flatMap_cons, List.flatMap_nil, List.append_nil]
  rw [hcand, hrow]
  rfl

theorem writeBack_wide_at (c : Nat) :
    (writeBack 1 16777218 [candidate 16777216 0 110, candidate 16777217 0 120]).atFloat 0 c
      = if c = 16777216 then 110 else 0 := by
  obtain ⟨h1, h2⟩ := candidate_wide_pt
  by_cases hc : c = 16777216
  · subst hc
    simp [writeBack, List.find?_cons, h1, candidate_response]
  · have hne : ¬ ((⟨16777216, 0⟩ : Point2f) = ⟨(c : ℚ), ((0 : Nat) : ℚ)⟩) := by
      intro h
      simp only [Point2f.mk.injEq] at h
      exact hc (by exact_mod_cast h.1.symm)
    have hq : ¬ ((16777216 : ℚ) = (c : ℚ)) := fun h => hc (by exact_mod_cast h.symm)
    simp [writeBack, List.find?_cons, h1, h2, hq, hc]

theorem candidates_writeBack_wide :
    candidates (writeBack 1 16777218 [candidate 16777216 0 110, candidate 16777217 0 120])
      = [candidate 16777216 0 110] := by
  have hnone : ∀ c, c ≠ 16777216 → c ≠ 16777217 →
      pixelCandidate
        (writeBack 1 16777218 [candidate 16777216 0 110, candidate 16777217 0 120]) 0 c
        = none := by
    intro c h1 _
    simp only [pixelCandidate, writeBack_wide_at, h1, if_false, truncToInt_zero]
    rw [if_neg (by decide)]
  have ha : pixelCandidate
      (writeBack 1 16777218 [candidate 16777216 0 110, candidate 16777217 0 120]) 0 16777216
      = some (candidate 16777216 0 110) := by
    simp only [pixelCandidate, writeBack_wide_at, if_true]
    decide!
  have hb : pixelCandidate
      (writeBack 1 16777218 [candidate 16777216 0 110, candidate 16777217 0 120]) 0 16777217
      = none := by
    simp only [pixelCandidate, writeBack_wide_at]
    decide!
  have hrow := filterMap_range_sparse (pixelCandidate
    (writeBack 1 16777218 [candidate 16777216 0 110, candidate 16777217 0 120]) 0)
    16777216 16777217 (by norm_num) hnone 16777218
  rw [ha, hb] at hrow
  have hcand : candidates
      (writeBack 1 16777218 [candidate 16777216 0 110, candidate 16777217 0 120])
      = (List.range 16777218).filterMap (pixelCandidate
          (writeBack 1 16777218 [candidate 16777216 0 110, candidate 16777217 0 120]) 0) := by
    show (List.range 1).flatMap
      (fun r => (List.range 16777218).filterMap (pixelCandidate
        (writeBack 1 16777218 [candidate 16777216 0 110, candidate 16777217 0 120]) r)) = _
    have hone : List.range 1 = [0] := rfl
    simp only [hone, List.flatMap_cons, List.flatMap_nil, List.append_nil]
  rw [hcand, hrow]
  rfl

/-! ## Claims about the ratio filter -/

/-- C1. Ratio-test rule: for every sequence of candidate pairs (best, second best) and every
initial content of the output vector, the loop returns, and it appends exactly the best
entries of the pairs with `best.distance <= threshold * second.distance`, in order; a
second-best entry is never appended.  The product is the single-precision product of the
program, with `threshold` the single-precision value of `0.8`; for the distance 50 it is
exactly 40.  In particular a pair with distances (40, 50) is kept and a pair with
distances (41, 50) is discarded. -/
theorem ratio_test_rule :
    threshold = 13421773 / 16777216 ∧
    fmul32 threshold 50 = 40 ∧
    (∀ (pairs : List (DMatch × DMatch)) (matched : List DMatch),
      ratioFilter (pairs.map (fun p => [p.1, p.2])) matched
        = .ok (matched ++ (pairs.filter
            (fun p => decide (p.1.distance ≤ fmul32 threshold p.2.distance))).map Prod.fst)) ∧
    (∀ (best second : DMatch) (matched : List DMatch),
      (best.distance ≤ fmul32 threshold second.distance →
        ratioFilter [[best, second]] matched = .ok (matched ++ [best])) ∧
      (¬ best.distance ≤ fmul32 threshold second.distance →
        ratioFilter [[best, second]] matched = .ok matched)) ∧
    (∀ (q t q1 t1 : Int) (matched : List DMatch),
      ratioFilter [[sampleMatch q t 40, sampleMatch q1 t1 50]] matched
        = .ok (matched ++ [sampleMatch q t 40])) ∧
    (∀ (q t q1 t1 : Int) (matched : List DMatch),
      ratioFilter [[sampleMatch q t 41, sampleMatch q1 t1 50]] matched = .ok matched) := by
  have h40 : (40 : ℚ) ≤ fmul32 threshold 50 := by decide!
  have h41 : ¬ (41 : ℚ) ≤ fmul32 threshold 50 := by decide!
  refine ⟨by decide!, by decide!, ratioFilter_pairs, ?_, ?_, ?_⟩
  · intro best second matched
    constructor
    · intro h
      simpa [h] using ratioFilter_pairs [(best, second)] matched
    · intro h
      simpa [h] using ratioFilter_pairs [(best, second)] matched
  · intro q t q1 t1 matched
    simpa [sampleMatch, h40] using
      ratioFilter_pairs [(sampleMatch q t 40, sampleMatch q1 t1 50)] matched
  · intro q t q1 t1 matched
    simpa [sampleMatch, h41] using
      ratioFilter_pairs [(sampleMatch q t 41, sampleMatch q1 t1 50)] matched

/-- Witness of C1: the rule applied to a kept pair and to a discarded pair. -/
theorem ratio_test_rule_witness :
    ratioFilter [[sampleMatch 0 3 40, sampleMatch 0 7 50]] [] = .ok [sampleMatch 0 3 40] ∧
    ratioFilter [[sampleMatch 1 2 41, sampleMatch 1 5 50]] [] = .ok [] :=
  ⟨(ratio_test_rule.2.2.2.1 (sampleMatch 0 3 40) (sampleMatch 0 7 50) []).1 (by decide!),
   (ratio_test_rule.2.2.2.1 (sampleMatch 1 2 41) (sampleMatch 1 5 50) []).2 (by decide!)⟩

/-- C4. Order and count: from an empty output vector the loop returns a list that is a
sublist of the list of best entries, in query order, hence with at most one entry per
query; when every pair passes the ratio test the result is exactly the list of the best
entries. -/
theorem ratio_filter_order_and_count (pairs : List (DMatch × DMatch)) :
    ∃ out, ratioFilter (pairs.map (fun p => [p.1, p.2])) [] = .ok out ∧
      out.Sublist (pairs.map Prod.fst) ∧
      out.length ≤ pairs.length ∧
      ((∀ p ∈ pairs, p.1.distance ≤ fmul32 threshold p.2.distance) →
        out = pairs.map Prod.fst) := by
  refine ⟨_, ratioFilter_pairs pairs [], ?_, ?_, ?_⟩
  · simpa using (List.filter_sublist pairs).map Prod.fst
  · simpa using List.length_filter_le _ pairs
  · intro h
    have : pairs.filter (fun p => decide (p.1.distance ≤ fmul32 threshold p.2.distance))
        = pairs := by
      rw [List.filter_eq_self]
      intro p hp
      simpa using h p hp
    simp [this]

/-- Witness of C4: three queries that all pass give the three best entries in order. -/
theorem ratio_filter_order_and_count_witness :
    ∃ out, ratioFilter [[sampleMatch 0 3 40, sampleMatch 0 7 50],
        [sampleMatch 1 2 10, sampleMatch 1 5 50], [sampleMatch 2 9 1, sampleMatch 2 4 2]] []
        = .ok out ∧
      out = [sampleMatch 0 3 40, sampleMatch 1 2 10, sampleMatch 2 9 1] := by
  obtain ⟨out, h1, _, _, h4⟩ := ratio_filter_order_and_count
    [(sampleMatch 0 3 40, sampleMatch 0 7 50), (sampleMatch 1 2 10, sampleMatch 1 5 50),
     (sampleMatch 2 9 1, sampleMatch 2 4 2)]
  exact ⟨out, h1, h4 (by decide!)⟩

/-- C5, counterexample: for a query with a single candidate the loop raises no
`InvalidInput`; it reads the missing second candidate. -/
theorem short_query_not_invalidInput :
    ratioFilter [[sampleMatch 0 3 40]] [] = .error Failure.outOfBoundsRead ∧
    ratioFilter [[sampleMatch 0 3 40]] [] ≠ .error Failure.invalidInput := by
  decide

/-- C5, amended. The loop validates nothing: it never fails with `InvalidInput`; when some
query has fewer than two candidates it reads a missing candidate (undefined behaviour, no
list is returned), and when every query has at least two candidates it returns. -/
theorem ratio_filter_no_validation (unfiltered : List (List DMatch)) (matched : List DMatch) :
    ratioFilter unfiltered matched ≠ .error Failure.invalidInput ∧
    ((∃ it ∈ unfiltered, it.length < 2) →
      ratioFilter unfiltered matched = .error Failure.outOfBoundsRead) ∧
    ((∀ it ∈ unfiltered, 2 ≤ it.length) → ∃ out, ratioFilter unfiltered matched = .ok out) :=
  ⟨ratioFilter_ne_invalidInput unfiltered matched,
   ratioFilter_error_of_short unfiltered matched,
   ratioFilter_ok_of_two unfiltered matched⟩

/-- Witness of C5: a short second query after a valid first one, and a valid sequence. -/
theorem ratio_filter_no_validation_witness :
    ratioFilter [[sampleMatch 0 3 40, sampleMatch 0 7 50], [sampleMatch 1 2 10]] []
      = .error Failure.outOfBoundsRead ∧
    ∃ out, ratioFilter [[sampleMatch 0 3 40, sampleMatch 0 7 50]] [] = .ok out :=
  ⟨(ratio_filter_no_validation
      [[sampleMatch 0 3 40, sampleMatch 0 7 50], [sampleMatch 1 2 10]] []).2.1
      ⟨[sampleMatch 1 2 10], by simp, by decide⟩,
   (ratio_filter_no_validation [[sampleMatch 0 3 40, sampleMatch 0 7 50]] []).2.2
      (by simp)⟩

/-- C9, the defect. In `SEL_KNN` mode the reference descriptors never reach the matcher:
for every library, every matcher configuration and every two reference sets the result is
the same. -/
theorem knn_result_ignores_descRef {Desc : Type} (lib : MatcherLibrary Desc)
    (descSource descRef descRef1 : Desc) (matched : List DMatch)
    (descriptorType matcherType : String) :
    matchDescriptors lib descSource descRef matched descriptorType matcherType "SEL_KNN"
      = matchDescriptors lib descSource descRef1 matched descriptorType matcherType
          "SEL_KNN" := by
  unfold matchDescriptors configureMatcher
  by_cases h1 : matcherType = "MAT_BF"
  · simp [h1]
  · by_cases h2 : matcherType = "MAT_FLANN"
    · by_cases h3 : lib.isCV32F descSource <;> simp [h2, h3]
    · simp [h1, h2]

/-! ## Claims about the Harris suppression loop -/

/-- C8. Per-candidate step.  (1) If no accepted keypoint overlaps the candidate above the
threshold, the candidate is appended.  (2) If `k` is the first accepted keypoint that
overlaps the candidate above the threshold and has a lower response than the candidate,
`k` is overwritten by the candidate at its index and nothing else changes; such a first
keypoint exists as soon as some accepted keypoint overlaps and is weaker.  (3) If some
accepted keypoint overlaps the candidate and none of the overlapping ones has a lower
response, the list is unchanged.  The step always takes one of these three forms, the
length never decreases and grows by at most one, and every index of the old list holds
either its old entry or the candidate. -/
theorem process_candidate_step (overlap : KeyPoint → KeyPoint → ℚ) (maxOverlap : ℚ)
    (keypoints : List KeyPoint) (temp : KeyPoint) :
    ((∀ k ∈ keypoints, ¬ overlap temp k > maxOverlap) →
      processCandidate overlap maxOverlap keypoints temp = keypoints ++ [temp]) ∧
    (∀ pre k post, keypoints = pre ++ k :: post →
      (∀ x ∈ pre, ¬ (overlap temp x > maxOverlap ∧ temp.response > x.response)) →
      overlap temp k > maxOverlap → temp.response > k.response →
      processCandidate overlap maxOverlap keypoints temp = pre ++ temp :: post ∧
      processCandidate overlap maxOverlap keypoints temp = keypoints.set pre.length temp) ∧
    ((∃ k ∈ keypoints, overlap temp k > maxOverlap ∧ temp.response > k.response) →
      ∃ pre k post, keypoints = pre ++ k :: post ∧
        overlap temp k > maxOverlap ∧ temp.response > k.response ∧
        processCandidate overlap maxOverlap keypoints temp = pre ++ temp :: post) ∧
    ((∃ k ∈ keypoints, overlap temp k > maxOverlap) →
      (∀ k ∈ keypoints, overlap temp k > maxOverlap → ¬ temp.response > k.response) →
      processCandidate overlap maxOverlap keypoints temp = keypoints) ∧
    (processCandidate overlap maxOverlap keypoints temp = keypoints ++ [temp] ∨
      (∃ i, i < keypoints.length ∧
        processCandidate overlap maxOverlap keypoints temp = keypoints.set i temp) ∨
      processCandidate overlap maxOverlap keypoints temp = keypoints) ∧
    keypoints.length ≤ (processCandidate overlap maxOverlap keypoints temp).length ∧
    (processCandidate overlap maxOverlap keypoints temp).length ≤ keypoints.length + 1 ∧
    (∀ (i : Nat) (k : KeyPoint), keypoints[i]? = some k →
      (processCandidate overlap maxOverlap keypoints temp)[i]? = some k ∨
      (processCandidate overlap maxOverlap keypoints temp)[i]? = some temp) := by
  refine ⟨?_, ?_, ?_, ?_, ?_, processCandidate_length_ge overlap maxOverlap keypoints temp,
    processCandidate_length_le overlap maxOverlap keypoints temp, ?_⟩
  · intro hno
    rcases processCandidate_spec overlap maxOverlap temp keypoints with
      ⟨_, he⟩ | ⟨pre, k, post, hpk, _, hov, _, _⟩ | ⟨⟨k, hk, hov⟩, _, _⟩
    · exact he
    · exact absurd hov (hno k (by simp [hpk]))
    · exact absurd hov (hno k hk)
  · intro pre k post hpk hpre hov hst
    have h1 : processCandidate overlap maxOverlap keypoints temp = pre ++ temp :: post := by
      simp [processCandidate, hpk, scanKeypoints_replace overlap maxOverlap temp k pre post
        false hpre hov hst]
    exact ⟨h1, by rw [h1, hpk, set_length_middle]⟩
  · rintro ⟨k0, hk0, hov0, hst0⟩
    rcases processCandidate_spec overlap maxOverlap temp keypoints with
      ⟨hno, _⟩ | ⟨pre, k, post, hpk, _, hov, hst, he⟩ | ⟨_, hall, _⟩
    · exact absurd hov0 (hno k0 hk0)
    · exact ⟨pre, k, post, hpk, hov, hst, he⟩
    · exact absurd hst0 (hall k0 hk0 hov0)
  · intro hex hall
    rcases processCandidate_spec overlap maxOverlap temp keypoints with
      ⟨hno, _⟩ | ⟨pre, k, post, hpk, _, hov, hst, _⟩ | ⟨_, _, he⟩
    · obtain ⟨k, hk, hov⟩ := hex
      exact absurd hov (hno k hk)
    · exact absurd hst (hall k (by simp [hpk]) hov)
    · exact he
  · rcases processCandidate_spec overlap maxOverlap temp keypoints with
      ⟨_, he⟩ | ⟨pre, k, post, hpk, _, _, _, he⟩ | ⟨_, _, he⟩
    · exact Or.inl he
    · right; left
      exact ⟨pre.length, by simp [hpk], by rw [he, hpk, set_length_middle]⟩
    · exact Or.inr (Or.inr he)
  · intro i k hik
    rcases processCandidate_spec overlap maxOverlap temp keypoints with
      ⟨_, he⟩ | ⟨pre, k1, post, hpk, _, _, _, he⟩ | ⟨_, _, he⟩
    · left
      rw [he, List.getElem?_append_left (List.getElem?_eq_some.mp hik).1]
      exact hik
    · have hset : processCandidate overlap maxOverlap keypoints temp
          = keypoints.set pre.length temp := by rw [he, hpk, set_length_middle]
      rw [hset, List.getElem?_set]
      by_cases hi : pre.length = i
      · right
        have hlt : i < keypoints.length := (List.getElem?_eq_some.mp hik).1
        simp [hi, hlt]
      · left
        simp [hi, hik]
    · left; rw [he]; exact hik

/-- Witness of C8: one concrete step of each of the three kinds, with the measure
`distOverlap` and the threshold 100. -/
theorem process_candidate_step_witness :
    processCandidate distOverlap 100 [candidate 0 0 110] (candidate 6 0 120)
      = [candidate 0 0 110, candidate 6 0 120] ∧
    processCandidate distOverlap 100 [candidate 0 0 110, candidate 6 0 120] (candidate 3 1 130)
      = [candidate 3 1 130, candidate 6 0 120] ∧
    processCandidate distOverlap 100 [candidate 3 1 130] (candidate 0 0 110)
      = [candidate 3 1 130] :=
  ⟨(process_candidate_step distOverlap 100 [candidate 0 0 110] (candidate 6 0 120)).1
      (by decide!),
   ((process_candidate_step distOverlap 100 [candidate 0 0 110, candidate 6 0 120]
      (candidate 3 1 130)).2.1 [] (candidate 0 0 110) [candidate 6 0 120] rfl
      (by simp) (by decide!) (by decide!)).1,
   (process_candidate_step distOverlap 100 [candidate 3 1 130] (candidate 0 0 110)).2.2.2.1
      ⟨candidate 3 1 130, by simp, by decide!⟩ (by decide!)⟩

/-- C2, counterexample: on `gridThree` with the measure `distOverlap` the candidate at
(3,1) overlaps both accepted keypoints; it replaces the first one and the loop stops, so
the result holds two distinct keypoints that overlap above 100. -/
theorem overlapping_pair_survives :
    detKeypointsHarris distOverlap [] gridThree = [candidate 3 1 130, candidate 6 0 120] ∧
    distOverlap (candidate 3 1 130) (candidate 6 0 120) > 100 ∧
    distOverlap (candidate 6 0 120) (candidate 3 1 130) > 100 ∧
    candidate 3 1 130 ≠ candidate 6 0 120 := by
  decide!

/-- C2, amended. When overlapping above the threshold is a symmetric and transitive
relation (the keypoints fall into disjoint groups of mutual duplicates; this includes every
measure that never exceeds 100), the list returned from an empty list contains no two
entries at different positions whose overlap, in either argument order, exceeds 100. -/
theorem no_overlapping_pair_of_symm_trans (overlap : KeyPoint → KeyPoint → ℚ) (dst_norm : Mat)
    (hsymm : ∀ a b, overlap a b > 100 → overlap b a > 100)
    (htrans : ∀ a b c, overlap a b > 100 → overlap b c > 100 → overlap a c > 100) :
    (detKeypointsHarris overlap [] dst_norm).Pairwise
      (fun a b => ¬ overlap a b > 100 ∧ ¬ overlap b a > 100) := by
  unfold detKeypointsHarris
  rw [harrisLoop_eq_foldl]
  exact foldl_processCandidate_pairwise overlap 100 hsymm htrans _ [] List.Pairwise.nil

/-- Witness of C2 (amended): with the measure `cellOverlap` the candidate at (3,1) of
`gridThree` replaces the weaker one at (0,0) of the same cell, and the two survivors do
not overlap. -/
theorem no_overlapping_pair_of_symm_trans_witness :
    detKeypointsHarris cellOverlap [] gridThree = [candidate 3 1 130, candidate 6 0 120] ∧
    (detKeypointsHarris cellOverlap [] gridThree).Pairwise
      (fun a b => ¬ cellOverlap a b > 100 ∧ ¬ cellOverlap b a > 100) :=
  ⟨by decide!,
   no_overlapping_pair_of_symm_trans cellOverlap gridThree
    (fun a b h => (cellOverlap_gt_iff b a).mpr
      ⟨((cellOverlap_gt_iff a b).mp h).1.symm, ((cellOverlap_gt_iff a b).mp h).2.symm⟩)
    (fun a b c h1 h2 => (cellOverlap_gt_iff a c).mpr
      ⟨((cellOverlap_gt_iff a b).mp h1).1.trans ((cellOverlap_gt_iff b c).mp h2).1,
       ((cellOverlap_gt_iff a b).mp h1).2.trans ((cellOverlap_gt_iff b c).mp h2).2⟩)⟩

theorem fracGrid_normalised : fracGrid.normalised := by
  intro r c hr hc
  have hr2 : r < 2 := hr
  have hc3 : c < 3 := hc
  interval_cases r <;> interval_cases c <;> decide!

theorem wideGrid_normalised : wideGrid.normalised := by
  intro r c _ _
  simp only [wideGrid]
  split_ifs <;> norm_num

/-- C10, counterexample: on the normalised grid `wideGrid` the pixel in column 16777217
holds the response 120, and for every overlap measure bounded by 100 (the ratio measure
`ratioOverlap` is one) its keypoint is returned with `x = 16777216`, the float nearest to
16777217, not with `x = 16777217`. -/
theorem wide_grid_position_is_rounded :
    wideGrid.normalised ∧
    truncToInt (wideGrid.atFloat 0 16777217) = 120 ∧
    (∀ a b, ratioOverlap a b ≤ 100) ∧
    detKeypointsHarris ratioOverlap [] wideGrid =
      [{ pt := ⟨16777216, 0⟩, size := 6, angle := -1, response := 110, octave := 0,
         class_id := -1 },
       { pt := ⟨16777216, 0⟩, size := 6, angle := -1, response := 120, octave := 0,
         class_id := -1 }] ∧
    (∀ overlap : KeyPoint → KeyPoint → ℚ, (∀ a b, overlap a b ≤ 100) →
      detKeypointsHarris overlap [] wideGrid =
        [{ pt := ⟨16777216, 0⟩, size := 6, angle := -1, response := 110, octave := 0,
           class_id := -1 },
         { pt := ⟨16777216, 0⟩, size := 6, angle := -1, response := 120, octave := 0,
           class_id := -1 }]) := by
  have hgen : ∀ overlap : KeyPoint → KeyPoint → ℚ, (∀ a b, overlap a b ≤ 100) →
      detKeypointsHarris overlap [] wideGrid =
        [{ pt := ⟨16777216, 0⟩, size := 6, angle := -1, response := 110, octave := 0,
           class_id := -1 },
         { pt := ⟨16777216, 0⟩, size := 6, angle := -1, response := 120, octave := 0,
           class_id := -1 }] := by
    intro overlap h
    unfold detKeypointsHarris
    rw [harrisLoop_of_bounded overlap 100 [] wideGrid h, candidates_wideGrid]
    decide!
  exact ⟨wideGrid_normalised, by decide!, ratioOverlap_le, hgen ratioOverlap ratioOverlap_le,
    hgen⟩

/-- C10, amended. No suppression when the overlap measure never exceeds 100 (for instance
a ratio between 0 and 1): for every normalised response grid of at most `2 ^ 24 + 1` rows
and columns and every initial keypoint list, the result is the initial list, unchanged,
followed by one keypoint for every pixel `(r, c)` whose response truncated to an integer
(its floor, the grid being non-negative) is greater than 100, in row-major order, with
position `(x = c, y = r)`, size 6 and response equal to the truncated value. -/
theorem no_suppression_on_bounded_grid (overlap : KeyPoint → KeyPoint → ℚ)
    (keypoints : List KeyPoint) (dst_norm : Mat) (h : ∀ a b, overlap a b ≤ 100)
    (hnorm : dst_norm.normalised) (hrows : dst_norm.rows ≤ 2 ^ 24 + 1)
    (hcols : dst_norm.cols ≤ 2 ^ 24 + 1) :
    detKeypointsHarris overlap keypoints dst_norm =
      keypoints ++ (List.range dst_norm.rows).flatMap (fun r =>
        (List.range dst_norm.cols).filterMap (fun c =>
          if ⌊dst_norm.atFloat r c⌋ > 100 then
            some { pt := ⟨(c : ℚ), (r : ℚ)⟩, size := 6, angle := -1,
                   response := (⌊dst_norm.atFloat r c⌋ : ℚ),
                   octave := 0, class_id := -1 }
          else none)) := by
  unfold detKeypointsHarris
  rw [harrisLoop_of_bounded overlap 100 keypoints dst_norm h]
  congr 1
  unfold candidates
  apply List.flatMap_congr
  intro r hr
  have hr1 := List.mem_range.mp hr
  apply List.filterMap_congr
  intro c hc
  have hc1 := List.mem_range.mp hc
  have hfloor := truncToInt_eq_floor (dst_norm.atFloat r c) (hnorm r c hr1 hc1).1
  simp only [pixelCandidate, hfloor, minResponse,
    candidate_eq_explicit c r _ (by omega : c ≤ 2 ^ 24) (by omega : r ≤ 2 ^ 24)]

/-- Witness of C10 (amended): with the ratio measure `ratioOverlap` and a caller list
holding one keypoint, the grid `fracGrid` (100.5, 101.25, 255 / 0.5, 130.75, 100.99) adds
the keypoints of the three pixels whose truncated response exceeds 100, with the responses
101, 255 and 130. -/
theorem no_suppression_on_bounded_grid_witness :
    detKeypointsHarris ratioOverlap [candidate 1 1 105] fracGrid =
      [candidate 1 1 105,
       { pt := ⟨1, 0⟩, size := 6, angle := -1, response := 101, octave := 0, class_id := -1 },
       { pt := ⟨2, 0⟩, size := 6, angle := -1, response := 255, octave := 0, class_id := -1 },
       { pt := ⟨1, 1⟩, size := 6, angle := -1, response := 130, octave := 0,
         class_id := -1 }] :=
  (no_suppression_on_bounded_grid ratioOverlap [candidate 1 1 105] fracGrid
    ratioOverlap_le fracGrid_normalised (by decide) (by decide)).trans (by decide!)

/-- C6, counterexample: on `wideGrid` the two candidates in the columns 16777216 and
16777217 receive the same position `x = 16777216`; for every overlap measure bounded by
100 both are returned; their own pixel is the same one, so the written-back grid has a
single non-zero pixel and the second run returns a single keypoint. -/
theorem wide_grid_second_run_drops_keypoint :
    (∀ a b, ratioOverlap a b ≤ 100) ∧
    (detKeypointsHarris ratioOverlap [] wideGrid
        = [candidate 16777216 0 110, candidate 16777217 0 120] ∧
      detKeypointsHarris ratioOverlap []
          (writeBack wideGrid.rows wideGrid.cols (detKeypointsHarris ratioOverlap [] wideGrid))
        = [candidate 16777216 0 110] ∧
      ¬ (detKeypointsHarris ratioOverlap []
          (writeBack wideGrid.rows wideGrid.cols
            (detKeypointsHarris ratioOverlap [] wideGrid))).Perm
        (detKeypointsHarris ratioOverlap [] wideGrid)) ∧
    (∀ overlap : KeyPoint → KeyPoint → ℚ, (∀ a b, overlap a b ≤ 100) →
      ¬ (detKeypointsHarris overlap []
          (writeBack wideGrid.rows wideGrid.cols
            (detKeypointsHarris overlap [] wideGrid))).Perm
        (detKeypointsHarris overlap [] wideGrid)) := by
  have hgen : ∀ overlap : KeyPoint → KeyPoint → ℚ, (∀ a b, overlap a b ≤ 100) →
      detKeypointsHarris overlap [] wideGrid
          = [candidate 16777216 0 110, candidate 16777217 0 120] ∧
        detKeypointsHarris overlap []
            (writeBack wideGrid.rows wideGrid.cols (detKeypointsHarris overlap [] wideGrid))
          = [candidate 16777216 0 110] := by
    intro overlap h
    have h1 : detKeypointsHarris overlap [] wideGrid
        = [candidate 16777216 0 110, candidate 16777217 0 120] := by
      unfold detKeypointsHarris
      rw [harrisLoop_of_bounded overlap 100 [] wideGrid h, candidates_wideGrid]
      rfl
    refine ⟨h1, ?_⟩
    rw [h1]
    show detKeypointsHarris overlap []
      (writeBack 1 16777218 [candidate 16777216 0 110, candidate 16777217 0 120]) = _
    unfold detKeypointsHarris
    rw [harrisLoop_of_bounded overlap 100 [] _ h, candidates_writeBack_wide]
    rfl
  have hperm : ∀ overlap : KeyPoint → KeyPoint → ℚ, (∀ a b, overlap a b ≤ 100) →
      ¬ (detKeypointsHarris overlap []
          (writeBack wideGrid.rows wideGrid.cols
            (detKeypointsHarris overlap [] wideGrid))).Perm
        (detKeypointsHarris overlap [] wideGrid) := by
    intro overlap h hp
    obtain ⟨h1, h2⟩ := hgen overlap h
    rw [h2, h1] at hp
    have := hp.length_eq
    simp at this
  obtain ⟨h1, h2⟩ := hgen ratioOverlap ratioOverlap_le
  exact ⟨ratioOverlap_le, ⟨h1, h2, hperm ratioOverlap ratioOverlap_le⟩, hperm⟩

/-- C6, amended. Idempotence on grids of at most `2 ^ 24 + 1` rows and columns: for every
such response grid and every overlap measure that never exceeds 100 (as the ratio returned
by the library), writing the keypoints returned from an empty list back into a zero grid
of the same dimensions and running the loop again from an empty list returns the same
keypoints: a permutation of the first result, namely its entries in row-major order. -/
theorem idempotent_on_bounded_grid (overlap : KeyPoint → KeyPoint → ℚ) (dst_norm : Mat)
    (h : ∀ a b, overlap a b ≤ 100) (hrows : dst_norm.rows ≤ 2 ^ 24 + 1)
    (hcols : dst_norm.cols ≤ 2 ^ 24 + 1) :
    (detKeypointsHarris overlap []
        (writeBack dst_norm.rows dst_norm.cols (detKeypointsHarris overlap [] dst_norm))).Perm
      (detKeypointsHarris overlap [] dst_norm) ∧
    detKeypointsHarris overlap []
        (writeBack dst_norm.rows dst_norm.cols (detKeypointsHarris overlap [] dst_norm))
      = candidates
          (writeBack dst_norm.rows dst_norm.cols (detKeypointsHarris overlap [] dst_norm)) := by
  unfold detKeypointsHarris
  obtain ⟨h1, h2⟩ := harrisLoop_writeBack overlap 100 dst_norm hrows hcols
    (List.pairwise_of_forall (fun a b => ⟨not_lt.mpr (h a b), not_lt.mpr (h b a)⟩))
  exact ⟨h1 ▸ h2, h1⟩

/-- Witness of C6 (amended): with the ratio measure `ratioOverlap` the first result on
`gridThree` holds its three candidates, and the second run returns the same three. -/
theorem idempotent_on_bounded_grid_witness :
    detKeypointsHarris ratioOverlap [] gridThree
      = [candidate 0 0 110, candidate 6 0 120, candidate 3 1 130] ∧
    (detKeypointsHarris ratioOverlap []
        (writeBack gridThree.rows gridThree.cols
          (detKeypointsHarris ratioOverlap [] gridThree))).Perm
      (detKeypointsHarris ratioOverlap [] gridThree) :=
  ⟨by decide!,
   (idempotent_on_bounded_grid ratioOverlap gridThree ratioOverlap_le (by decide)
      (by decide)).1⟩

/-- C7, counterexample: on `gridFour` with the measure `distOverlap`, the threshold 115
returns three keypoints and the larger threshold 130 returns two. -/
theorem larger_threshold_fewer_keypoints :
    (115 : ℚ) ≤ 130 ∧
    harrisLoop distOverlap 115 [] gridFour
      = [candidate 0 0 150, candidate 7 0 150, candidate 4 3 150] ∧
    harrisLoop distOverlap 130 [] gridFour = [candidate 0 0 150, candidate 4 0 150] ∧
    (harrisLoop distOverlap 130 [] gridFour).length
      < (harrisLoop distOverlap 115 [] gridFour).length := by
  decide!

/-- C7, amended. With the overlap threshold as a parameter and `t1 <= t2`:
(a) processing one candidate against a fixed accepted list leaves a list at least as long
with `t2` as with `t1`; (b) when overlapping above the lower threshold `t1` is a symmetric
and transitive relation, the number of keypoints returned for a grid with `t2` is at least
the number returned with `t1`; (c) when no overlap value exceeds `t2`, the loop with `t2`
returns every candidate, which is at least the number returned with `t1`. -/
theorem threshold_monotone_amended (overlap : KeyPoint → KeyPoint → ℚ) (t1 t2 : ℚ)
    (h : t1 ≤ t2) :
    (∀ (keypoints : List KeyPoint) (temp : KeyPoint),
      (processCandidate overlap t1 keypoints temp).length
        ≤ (processCandidate overlap t2 keypoints temp).length) ∧
    (∀ dst_norm : Mat,
      (∀ a b, overlap a b > t1 → overlap b a > t1) →
      (∀ a b c, overlap a b > t1 → overlap b c > t1 → overlap a c > t1) →
      (harrisLoop overlap t1 [] dst_norm).length
        ≤ (harrisLoop overlap t2 [] dst_norm).length) ∧
    (∀ dst_norm : Mat, (∀ a b, overlap a b ≤ t2) →
      (harrisLoop overlap t1 [] dst_norm).length ≤ (harrisLoop overlap t2 [] dst_norm).length ∧
      harrisLoop overlap t2 [] dst_norm = candidates dst_norm) := by
  refine ⟨?_, ?_, ?_⟩
  · intro keypoints temp
    rcases processCandidate_spec overlap t2 temp keypoints with
      ⟨_, he⟩ | ⟨pre, k, post, hpk, _, hov, _, he⟩ | ⟨⟨k, hk, hov⟩, _, he⟩
    · rw [he]
      simpa using processCandidate_length_le overlap t1 keypoints temp
    · have hlen : (processCandidate overlap t2 keypoints temp).length = keypoints.length := by
        rw [he, hpk]; simp
      rw [hlen]
      rcases processCandidate_spec overlap t1 temp keypoints with
        ⟨hno, _⟩ | ⟨pre1, k1, post1, hpk1, _, _, _, he1⟩ | ⟨_, _, he1⟩
      · exact absurd (lt_of_le_of_lt h hov) (hno k (by simp [hpk]))
      · rw [he1, hpk1]; simp
      · rw [he1]
    · rw [he]
      rcases processCandidate_spec overlap t1 temp keypoints with
        ⟨hno, _⟩ | ⟨pre1, k1, post1, hpk1, _, _, _, he1⟩ | ⟨_, _, he1⟩
      · exact absurd (lt_of_le_of_lt h hov) (hno k hk)
      · rw [he1, hpk1]; simp
      · rw [he1]
  · intro dst_norm hsymm htrans
    exact harrisLoop_length_mono overlap t1 t2 h hsymm htrans dst_norm
  · intro dst_norm hle
    have htop : harrisLoop overlap t2 [] dst_norm = candidates dst_norm := by
      simpa using harrisLoop_of_bounded overlap t2 [] dst_norm hle
    refine ⟨?_, htop⟩
    rw [htop, harrisLoop_eq_foldl]
    simpa using foldl_processCandidate_length_le overlap t1 (candidates dst_norm) []

/-- Witness of C7 (amended): (a) one step with the thresholds 115 and 130 and the measure
`distOverlap`; (b) `gridThree` with the two-level measure `nestedOverlap` and the
thresholds 100 and 130, which return one and two keypoints; (c) `gridFour` with the
thresholds 115 and 200 (the measure `distOverlap` never exceeds 200). -/
theorem threshold_monotone_amended_witness :
    (processCandidate distOverlap 115 [candidate 0 0 150] (candidate 4 0 150)).length
      ≤ (processCandidate distOverlap 130 [candidate 0 0 150] (candidate 4 0 150)).length ∧
    ((harrisLoop nestedOverlap 100 [] gridThree).length
        ≤ (harrisLoop nestedOverlap 130 [] gridThree).length ∧
      harrisLoop nestedOverlap 100 [] gridThree = [candidate 3 1 130] ∧
      harrisLoop nestedOverlap 130 [] gridThree = [candidate 3 1 130, candidate 6 0 120]) ∧
    (harrisLoop distOverlap 115 [] gridFour).length
      ≤ (harrisLoop distOverlap 200 [] gridFour).length :=
  ⟨(threshold_monotone_amended distOverlap 115 130 (by norm_num)).1
      [candidate 0 0 150] (candidate 4 0 150),
   ⟨(threshold_monotone_amended nestedOverlap 100 130 (by norm_num)).2.1 gridThree
      (fun a b h => (nestedOverlap_gt_100_iff b a).mpr
        ⟨((nestedOverlap_gt_100_iff a b).mp h).1.symm,
         ((nestedOverlap_gt_100_iff a b).mp h).2.symm⟩)
      (fun a b c h1 h2 => (nestedOverlap_gt_100_iff a c).mpr
        ⟨((nestedOverlap_gt_100_iff a b).mp h1).1.trans ((nestedOverlap_gt_100_iff b c).mp h2).1,
         ((nestedOverlap_gt_100_iff a b).mp h1).2.trans
           ((nestedOverlap_gt_100_iff b c).mp h2).2⟩),
    by decide!, by decide!⟩,
   ((threshold_monotone_amended distOverlap 115 200 (by norm_num)).2.2 gridFour
      distOverlap_le).1⟩

end Matching2D
